import Mathlib

/-!
# Verification of the Ink2Markdown transcription orchestration engine

A shallow embedding of the core text utilities, line-consensus logic,
error classification, response cache, concurrency scheduler and line
segmenter of the Ink2Markdown repository, together with proofs of the
frozen specification claims.

Modelling conventions:
* JavaScript strings are modelled as Lean `String`s (lists of unicode
  scalar values); `toLowerCase` is modelled on the ASCII range, which is
  the only range the claims exercise.
* JavaScript numbers are modelled exactly: integer counters as `Nat`/`Int`
  and similarity scores (quotients of small integers) as `ℚ`.
* Regular-expression pipelines from the source are translated into
  character-level scanning functions with the same semantics
  (non-overlapping, left-to-right matching).
-/

namespace Ink2Md

/-! ## Character helpers (ASCII model of the JS string primitives) -/

/-- ASCII lower-casing, modelling `String.prototype.toLowerCase` on the
character range exercised by the source's regexes. -/
def lowerChar (c : Char) : Char :=
  if 'A' ≤ c && c ≤ 'Z' then Char.ofNat (c.toNat + 32) else c

/-- The JS `\s` class (whitespace), restricted to the ASCII range. -/
def isJsWs (c : Char) : Bool :=
  c == ' ' || c == '\t' || c == '\n' || c == '\r' || c == '\x0b' || c == '\x0c'

/-- Lower-case ASCII letter test (`[a-z]`). -/
def isLowerAZ (c : Char) : Bool := 'a' ≤ c && c ≤ 'z'

/-- The `[a-z0-9]` class used by `normalizeLineForSimilarity`. -/
def isAlnumLower (c : Char) : Bool :=
  ('a' ≤ c && c ≤ 'z') || ('0' ≤ c && c ≤ '9')

/-- The `[a-z0-9']` class used by `tokenizeWords`. -/
def isWordChar (c : Char) : Bool :=
  ('a' ≤ c && c ≤ 'z') || ('0' ≤ c && c ≤ '9') || c == '\''

/-- Does `p` occur as a prefix of `s`? (char-list version of `startsWith`). -/
def startsWithChars : List Char → List Char → Bool
  | [], _ => true
  | _ :: _, [] => false
  | p :: ps, c :: cs => p == c && startsWithChars ps cs

/-- Does `pat` occur as a substring of `s`?  Models `String.prototype.includes`
and alternation regexes over literal words. -/
def hasSubChars : List Char → List Char → Bool
  | s, pat =>
    startsWithChars pat s ||
      match s with
      | [] => false
      | _ :: cs => hasSubChars cs pat

/-- Trim ASCII whitespace from both ends (models `String.prototype.trim`). -/
def trimChars (l : List Char) : List Char :=
  ((l.dropWhile isJsWs).reverse.dropWhile isJsWs).reverse

/-- Maximal runs of characters satisfying `p`, in order.  This is the
combined effect of the source pattern “replace every `[^…]+` run by a
space, trim, split on `\s+`”. -/
def runsAux (p : Char → Bool) : List Char → List Char → List (List Char)
  | [], acc => if acc.isEmpty then [] else [acc.reverse]
  | c :: cs, acc =>
    if p c then runsAux p cs (c :: acc)
    else if acc.isEmpty then runsAux p cs []
    else acc.reverse :: runsAux p cs []

/-- Maximal runs of characters satisfying `p`. -/
def runsOf (p : Char → Bool) (l : List Char) : List (List Char) :=
  runsAux p l []

/-- Replace each `"\r\n"` by `"\n"`, scanning left to right
(the `/\r\n/g` replacement in `normalizeMultilineOutput`). -/
def replaceCRLF : List Char → List Char
  | [] => []
  | '\r' :: '\n' :: cs => '\n' :: replaceCRLF cs
  | c :: cs => c :: replaceCRLF cs

/-! ## `src/utils/text-utils.ts` -/

/-- The illegibility marker `"==ILLEGIBLE=="` as a character list. -/
def illegibleTok : List Char := "==ILLEGIBLE==".toList

/-- The lowercased marker `"==illegible=="` matched inside `tokenizeWords`. -/
def illegibleLowerTok : List Char := "==illegible==".toList

/-- One left-to-right pass replacing every (non-overlapping) occurrence of
`"==illegible=="` by `" illegible "`; the fuel argument (always at least the
input length) only makes the 13-character skip structurally recursive. -/
def replaceIllegibleAux : Nat → List Char → List Char
  | 0, l => l
  | fuel + 1, l =>
    match l with
    | [] => []
    | c :: cs =>
      if startsWithChars illegibleLowerTok l then
        " illegible ".toList ++ replaceIllegibleAux fuel (l.drop 13)
      else
        c :: replaceIllegibleAux fuel cs

/-- `tokenizeWords` from `text-utils.ts` (lines 81–88): lowercase, replace the
illegibility marker by the single word `illegible`, then split into maximal
`[a-z0-9']` runs. -/
def tokenizeWords (text : String) : List String :=
  let lowered := text.toList.map lowerChar
  let replaced := replaceIllegibleAux lowered.length lowered
  (runsOf isWordChar replaced).map fun r => String.mk r

/-- `preservesWordSequence` from `text-utils.ts` (lines 53–65): length check
followed by an element-by-element comparison of the two token sequences. -/
def preservesWordSequence (raw formatted : String) : Bool :=
  let rawWords := tokenizeWords raw
  let formattedWords := tokenizeWords formatted
  if rawWords.length = formattedWords.length then
    (List.range rawWords.length).all fun i =>
      rawWords.getD i "" == formattedWords.getD i ""
  else false

/-- Fuel-structured scan counting non-overlapping occurrences of
`"==ILLEGIBLE=="` left to right, as the global regex match in
`countIllegible` does; the fuel is always at least the input length. -/
def countIllegibleAux : Nat → List Char → Nat
  | 0, _ => 0
  | fuel + 1, l =>
    match l with
    | [] => 0
    | _ :: cs =>
      if startsWithChars illegibleTok l then
        1 + countIllegibleAux fuel (l.drop 13)
      else
        countIllegibleAux fuel cs

/-- `countIllegible` from `text-utils.ts` (lines 48–51). -/
def countIllegible (text : String) : Nat :=
  countIllegibleAux text.toList.length text.toList

/-- `pickBetterLine` from `text-utils.ts` (lines 32–42): fewer illegibility
markers wins, then the longer string, then the first candidate. -/
def pickBetterLine (a b : String) : String :=
  let aIllegible := countIllegible a
  let bIllegible := countIllegible b
  if aIllegible ≠ bIllegible then
    if aIllegible < bIllegible then a else b
  else if a.length ≠ b.length then
    if b.length < a.length then a else b
  else a

/-- `normalizeMultilineOutput` from `text-utils.ts` (lines 28–30):
`text.replace(/\r\n/g, "\n").trim()`. -/
def normalizeMultilineOutput (text : String) : String :=
  String.mk (trimChars (replaceCRLF text.toList))

/-- `normalizeLineOutput` from `text-utils.ts` (lines 20–26): normalize the
multiline output, then collapse every whitespace run (`/\n+/g` then `/\s+/g`)
to a single space and trim; on an already-trimmed string this joins the
maximal non-whitespace runs with single spaces. -/
def normalizeLineOutput (text : String) : String :=
  let normalized := normalizeMultilineOutput text
  if normalized = "" then ""
  else String.intercalate " " ((runsOf (fun c => !isJsWs c) normalized.toList).map String.mk)

/-- `normalizeLineForSimilarity` from `text-utils.ts` (lines 90–97): trim,
lowercase, replace every `[^a-z0-9]+` run by a space, collapse whitespace,
trim — i.e. join the maximal `[a-z0-9]` runs with single spaces. -/
def normalizeLineForSimilarity (line : String) : String :=
  let lowered := (trimChars line.toList).map lowerChar
  String.intercalate " " ((runsOf isAlnumLower lowered).map String.mk)

/-- The dynamic-programming table of `levenshteinDistance` from
`text-utils.ts` (lines 99–126).  `levCell a b i j` is the value the rolling
row computation stores for the prefix lengths `(i, j)`: the source keeps row
`i - 1` in `prev` and fills row `i` as
`cur[j] = min(prev[j] + 1, cur[j-1] + 1, prev[j-1] + cost)`, with
`cur[0] = i` and the initial row `prev = [0..bLen]`. -/
def levCell (a b : List Char) : Nat → Nat → Nat
  | 0, j => j
  | i + 1, 0 => i + 1
  | i + 1, j + 1 =>
    let cost := if a.getD i ' ' = b.getD j ' ' then 0 else 1
    min (min (levCell a b i (j + 1) + 1) (levCell a b (i + 1) j + 1))
      (levCell a b i j + cost)
termination_by i j => (i, j)

/-- `levenshteinDistance` (the final cell `prev[bLen]` of the table, with the
source's early returns for an empty argument folded into the base rows). -/
def levenshteinDistance (a b : String) : Nat :=
  levCell a.toList b.toList a.length b.length

/-- `lineSimilarity` from `text-utils.ts` (lines 67-79), with the JS double
arithmetic modelled exactly over `ℚ`. -/
def lineSimilarity (lineA lineB : String) : ℚ :=
  let a := normalizeLineForSimilarity lineA
  let b := normalizeLineForSimilarity lineB
  if a = "" ∧ b = "" then 1
  else if a = "" ∨ b = "" then 0
  else
    let distance := levenshteinDistance a b
    let maxLen := max a.length b.length
    if maxLen = 0 then 1 else 1 - (distance : ℚ) / (maxLen : ℚ)

/-! ## Properties of the Levenshtein table -/

lemma levCell_zero_left (a b : List Char) (j : Nat) : levCell a b 0 j = j := by
  cases j <;> simp [levCell]

lemma levCell_zero_right (a b : List Char) (i : Nat) : levCell a b i 0 = i := by
  cases i <;> simp [levCell]

lemma levCell_succ (a b : List Char) (i j : Nat) :
    levCell a b (i + 1) (j + 1) =
      min (min (levCell a b i (j + 1) + 1) (levCell a b (i + 1) j + 1))
        (levCell a b i j + if a.getD i ' ' = b.getD j ' ' then 0 else 1) := by
  simp [levCell]

lemma levCell_symm_aux (a b : List Char) :
    ∀ n i j, i + j ≤ n → levCell a b i j = levCell b a j i := by
  intro n
  induction n with
  | zero =>
    intro i j h
    have hi : i = 0 := by omega
    have hj : j = 0 := by omega
    subst hi; subst hj
    rw [levCell_zero_left, levCell_zero_left]
  | succ n ih =>
    intro i j h
    match i, j with
    | 0, j => rw [levCell_zero_left, levCell_zero_right]
    | i + 1, 0 => rw [levCell_zero_left, levCell_zero_right]
    | i + 1, j + 1 =>
      rw [levCell_succ, levCell_succ]
      rw [ih i (j + 1) (by omega), ih (i + 1) j (by omega), ih i j (by omega)]
      have hcost : (if a.getD i ' ' = b.getD j ' ' then 0 else 1) =
          (if b.getD j ' ' = a.getD i ' ' then 0 else 1) := by
        simp [eq_comm]
      rw [hcost]
      omega

/-- The edit-distance table is symmetric in its two strings. -/
lemma levCell_symm (a b : List Char) (i j : Nat) : levCell a b i j = levCell b a j i :=
  levCell_symm_aux a b (i + j) i j (le_refl _)

/-- The diagonal of the table for a string against itself is zero. -/
lemma levCell_self (a : List Char) : ∀ i, levCell a a i i = 0 := by
  intro i
  induction i with
  | zero => rw [levCell_zero_left]
  | succ i ih => rw [levCell_succ, ih]; simp

/-- Every table entry is bounded by the larger prefix length. -/
lemma levCell_le_max (a b : List Char) :
    ∀ n i j, i + j ≤ n → levCell a b i j ≤ max i j := by
  intro n
  induction n with
  | zero =>
    intro i j h
    have hi : i = 0 := by omega
    have hj : j = 0 := by omega
    subst hi; subst hj
    rw [levCell_zero_left]; omega
  | succ n ih =>
    intro i j h
    match i, j with
    | 0, j => rw [levCell_zero_left]; omega
    | i + 1, 0 => rw [levCell_zero_right]; omega
    | i + 1, j + 1 =>
      rw [levCell_succ]
      have h3 := ih i j (by omega)
      have : (if a.getD i ' ' = b.getD j ' ' then 0 else 1) ≤ 1 := by
        split <;> omega
      omega

lemma levenshteinDistance_comm (a b : String) :
    levenshteinDistance a b = levenshteinDistance b a :=
  levCell_symm a.toList b.toList a.length b.length

lemma levenshteinDistance_self (a : String) : levenshteinDistance a a = 0 :=
  levCell_self a.toList a.length

lemma levenshteinDistance_le_max (a b : String) :
    levenshteinDistance a b ≤ max a.length b.length :=
  levCell_le_max a.toList b.toList (a.length + b.length) a.length b.length (le_refl _)

lemma length_pos_of_ne_empty (s : String) (h : s ≠ "") : 0 < s.length := by
  obtain ⟨data⟩ := s
  cases data with
  | nil => exact absurd rfl h
  | cons c cs => simp [String.length]

/-! ## Properties of `lineSimilarity` -/

/-- In the branch where both normalized strings are non-empty, `lineSimilarity`
is exactly the normalized edit-distance formula. -/
lemma lineSimilarity_formula (a b : String)
    (hx : normalizeLineForSimilarity a ≠ "") (hy : normalizeLineForSimilarity b ≠ "") :
    lineSimilarity a b =
      1 - (levenshteinDistance (normalizeLineForSimilarity a) (normalizeLineForSimilarity b) : ℚ) /
        ((max (normalizeLineForSimilarity a).length (normalizeLineForSimilarity b).length : Nat) : ℚ) := by
  have hmax : max (normalizeLineForSimilarity a).length (normalizeLineForSimilarity b).length ≠ 0 := by
    have := length_pos_of_ne_empty _ hx
    omega
  unfold lineSimilarity
  rw [if_neg (by tauto), if_neg (by tauto), if_neg hmax]

lemma lineSimilarity_comm (a b : String) : lineSimilarity a b = lineSimilarity b a := by
  by_cases hx : normalizeLineForSimilarity a = ""
  · by_cases hy : normalizeLineForSimilarity b = "" <;>
      unfold lineSimilarity <;> simp [hx, hy]
  · by_cases hy : normalizeLineForSimilarity b = ""
    · unfold lineSimilarity; simp [hx, hy]
    · rw [lineSimilarity_formula a b hx hy, lineSimilarity_formula b a hy hx,
        levenshteinDistance_comm, Nat.max_comm]

lemma lineSimilarity_self (a : String) : lineSimilarity a a = 1 := by
  by_cases hx : normalizeLineForSimilarity a = ""
  · unfold lineSimilarity; simp [hx]
  · rw [lineSimilarity_formula a a hx hx, levenshteinDistance_self]
    simp

lemma lineSimilarity_nonneg (a b : String) : 0 ≤ lineSimilarity a b := by
  by_cases hx : normalizeLineForSimilarity a = ""
  · by_cases hy : normalizeLineForSimilarity b = "" <;>
      unfold lineSimilarity <;> simp [hx, hy]
  · by_cases hy : normalizeLineForSimilarity b = ""
    · unfold lineSimilarity; simp [hx, hy]
    · rw [lineSimilarity_formula a b hx hy]
      have hpos : (0 : ℚ) <
          ((max (normalizeLineForSimilarity a).length (normalizeLineForSimilarity b).length : Nat) : ℚ) := by
        have := length_pos_of_ne_empty _ hx
        have hm : 0 < max (normalizeLineForSimilarity a).length (normalizeLineForSimilarity b).length := by
          omega
        exact_mod_cast hm
      have hdiv : (levenshteinDistance (normalizeLineForSimilarity a) (normalizeLineForSimilarity b) : ℚ) /
          ((max (normalizeLineForSimilarity a).length (normalizeLineForSimilarity b).length : Nat) : ℚ) ≤ 1 := by
        rw [div_le_one hpos]
        exact_mod_cast levenshteinDistance_le_max _ _
      linarith

lemma lineSimilarity_le_one (a b : String) : lineSimilarity a b ≤ 1 := by
  by_cases hx : normalizeLineForSimilarity a = ""
  · by_cases hy : normalizeLineForSimilarity b = "" <;>
      unfold lineSimilarity <;> simp [hx, hy]
  · by_cases hy : normalizeLineForSimilarity b = ""
    · unfold lineSimilarity; simp [hx, hy]
    · rw [lineSimilarity_formula a b hx hy]
      have hpos : (0 : ℚ) <
          ((max (normalizeLineForSimilarity a).length (normalizeLineForSimilarity b).length : Nat) : ℚ) := by
        have := length_pos_of_ne_empty _ hx
        have hm : 0 < max (normalizeLineForSimilarity a).length (normalizeLineForSimilarity b).length := by
          omega
        exact_mod_cast hm
      have hdivnn : (0 : ℚ) ≤
          (levenshteinDistance (normalizeLineForSimilarity a) (normalizeLineForSimilarity b) : ℚ) /
            ((max (normalizeLineForSimilarity a).length (normalizeLineForSimilarity b).length : Nat) : ℚ) := by
        positivity
      linarith

/-! ## `preservesWordSequence` and the page formatting-acceptance step -/

lemma all_range_getD_iff (l₁ l₂ : List String) (hl : l₁.length = l₂.length) :
    (((List.range l₁.length).all fun i => l₁.getD i "" == l₂.getD i "") = true) ↔ l₁ = l₂ := by
  induction l₁ generalizing l₂ with
  | nil =>
    cases l₂ with
    | nil => simp
    | cons b u => simp at hl
  | cons a t ih =>
    cases l₂ with
    | nil => simp at hl
    | cons b u =>
      have hl' : t.length = u.length := by simpa using hl
      rw [show (a :: t).length = t.length + 1 from rfl, List.range_succ_eq_map,
        List.all_cons, List.all_map]
      constructor
      · intro h
        have h0 : (a == b) = true := by
          have := (Bool.and_eq_true _ _).mp h
          simpa using this.1
        have h1 : t = u := by
          apply (ih u hl').mp
          have := (Bool.and_eq_true _ _).mp h
          simpa [Function.comp] using this.2
        rw [eq_of_beq h0, h1]
      · intro h
        injection h with h0 h1
        subst h0; subst h1
        apply (Bool.and_eq_true _ _).mpr
        refine ⟨by simp, ?_⟩
        simp [Function.comp, (ih t rfl).mpr rfl]

/-- `preservesWordSequence raw formatted` holds exactly when the two word-token
sequences agree element by element and in length, i.e. when they are equal. -/
lemma preservesWordSequence_iff (raw formatted : String) :
    preservesWordSequence raw formatted = true ↔
      tokenizeWords raw = tokenizeWords formatted := by
  by_cases hl : (tokenizeWords raw).length = (tokenizeWords formatted).length
  · simp only [preservesWordSequence, if_pos hl]
    exact all_range_getD_iff _ _ hl
  · simp only [preservesWordSequence, if_neg hl]
    constructor
    · intro h; cases h
    · intro h; exact absurd (congrArg List.length h) hl

/-- The formatting-acceptance tail of `transcribeImageByLines`
(`transcription.ts` lines 119–136): given the raw page concatenation
(`rawPage`) and the provider's reformatting response, return the empty page for
an empty concatenation, keep `rawPage` when the normalized response is empty,
and otherwise accept the normalized response only when it preserves the word
sequence. -/
def finalizePageText (rawPage providerFormatted : String) : String :=
  if rawPage = "" then ""
  else
    let formatted := normalizeMultilineOutput providerFormatted
    if formatted = "" then rawPage
    else if preservesWordSequence rawPage formatted then formatted else rawPage

/-! ## Line consensus (`transcription.ts` lines 76–105) -/

/-- `LINE_CONSENSUS_SIMILARITY` from `constants/config.ts` (the JS double
`0.96`, modelled as the exact rational). -/
def lineConsensusSimilarityQ : ℚ := 96 / 100

/-- Result of resolving one line: the chosen text, the confidence score, and
whether the arbitration (judge) call was issued. -/
structure LineChoiceResult where
  text : String
  confidence : ℚ
  usedJudge : Bool
deriving DecidableEq, Repr

/-- The per-line consensus step of `transcribeImageByLines`
(`transcription.ts` lines 76–105).  `candidateA`/`candidateB` are the two
normalized transcription candidates; `judgeRaw` is the raw response the
provider's judge call would return, consumed only in the below-threshold
branch. -/
def resolveLineChoice (candidateA candidateB judgeRaw : String) : LineChoiceResult :=
  let similarity := lineSimilarity candidateA candidateB
  if lineConsensusSimilarityQ ≤ similarity then
    { text := pickBetterLine candidateA candidateB, confidence := similarity,
      usedJudge := false }
  else
    let judged := normalizeLineOutput judgeRaw
    let chosen := if judged = "" then pickBetterLine candidateA candidateB else judged
    { text := chosen,
      confidence := max similarity
        (max (lineSimilarity chosen candidateA) (lineSimilarity chosen candidateB)),
      usedJudge := true }

/-! ## Claim theorems: C1, C4, C8 -/

/-- **C1** — `transcribeImageByLines` returns the reformatted string only if
its word-token sequence (as computed by `tokenizeWords`: lowercased,
punctuation stripped, the illegibility marker normalized to the single token
`illegible`) is exactly equal, element by element and in length, to the raw
concatenation's word-token sequence; in every other case the raw concatenation
is returned verbatim. -/
theorem c1_format_only_if_words_preserved (rawPage resp : String) :
    finalizePageText rawPage resp = rawPage ∨
      (finalizePageText rawPage resp = normalizeMultilineOutput resp ∧
        tokenizeWords rawPage = tokenizeWords (normalizeMultilineOutput resp)) := by
  by_cases h0 : rawPage = ""
  · left
    simp [finalizePageText, h0]
  · by_cases hf : normalizeMultilineOutput resp = ""
    · left
      simp [finalizePageText, h0, hf]
    · by_cases hp : preservesWordSequence rawPage (normalizeMultilineOutput resp) = true
      · right
        exact ⟨by simp [finalizePageText, h0, hf, hp], (preservesWordSequence_iff _ _).mp hp⟩
      · left
        simp [finalizePageText, h0, hf, hp]

/-- **C4** — algebraic properties of `lineSimilarity`: symmetry, identity on
equal strings, the two fixed empty-string cases, the `[0,1]` range, and the
normalized edit-distance formula whenever both normalizations are
non-empty. -/
theorem c4_lineSimilarity_spec (a b : String) :
    lineSimilarity a b = lineSimilarity b a ∧
    lineSimilarity a a = 1 ∧
    lineSimilarity "" "" = 1 ∧
    lineSimilarity "" "x" = 0 ∧
    0 ≤ lineSimilarity a b ∧ lineSimilarity a b ≤ 1 ∧
    (normalizeLineForSimilarity a ≠ "" → normalizeLineForSimilarity b ≠ "" →
      lineSimilarity a b =
        1 - (levenshteinDistance (normalizeLineForSimilarity a)
              (normalizeLineForSimilarity b) : ℚ) /
          ((max (normalizeLineForSimilarity a).length
            (normalizeLineForSimilarity b).length : Nat) : ℚ)) :=
  ⟨lineSimilarity_comm a b, lineSimilarity_self a, by decide, by decide,
    lineSimilarity_nonneg a b, lineSimilarity_le_one a b, lineSimilarity_formula a b⟩

/-- Witness for C4: both hypotheses of the formula conjunct are discharged at
the concrete pair `("ab", "b")`. -/
theorem c4_lineSimilarity_spec_witness :
    normalizeLineForSimilarity "ab" ≠ "" ∧ normalizeLineForSimilarity "b" ≠ "" ∧
    lineSimilarity "ab" "b" =
      1 - (levenshteinDistance (normalizeLineForSimilarity "ab")
            (normalizeLineForSimilarity "b") : ℚ) /
        ((max (normalizeLineForSimilarity "ab").length
          (normalizeLineForSimilarity "b").length : Nat) : ℚ) :=
  ⟨by decide, by decide,
    (c4_lineSimilarity_spec "ab" "b").2.2.2.2.2.2 (by decide) (by decide)⟩

/-- **C8** — when the two normalized candidates reach the consensus threshold
`0.96`, the chosen text is `pickBetterLine` (fewer `==ILLEGIBLE==` markers
wins; equal counts → longer string wins; equal lengths → first candidate), the
confidence is the similarity, and no judge call is issued. -/
theorem c8_consensus_no_judge (a b judgeRaw : String)
    (h : lineConsensusSimilarityQ ≤ lineSimilarity a b) :
    resolveLineChoice a b judgeRaw =
      { text := pickBetterLine a b, confidence := lineSimilarity a b,
        usedJudge := false } ∧
    (countIllegible a < countIllegible b → pickBetterLine a b = a) ∧
    (countIllegible b < countIllegible a → pickBetterLine a b = b) ∧
    (countIllegible a = countIllegible b → b.length < a.length →
      pickBetterLine a b = a) ∧
    (countIllegible a = countIllegible b → a.length < b.length →
      pickBetterLine a b = b) ∧
    (countIllegible a = countIllegible b → a.length = b.length →
      pickBetterLine a b = a) := by
  refine ⟨by simp [resolveLineChoice, h], ?_, ?_, ?_, ?_, ?_⟩
  · intro hc
    simp [pickBetterLine, Nat.ne_of_lt hc, hc]
  · intro hc
    simp [pickBetterLine, Nat.ne_of_gt hc, Nat.not_lt_of_gt hc]
  · intro hc hlen
    simp [pickBetterLine, hc, Nat.ne_of_gt hlen, hlen]
  · intro hc hlen
    simp [pickBetterLine, hc, Nat.ne_of_lt hlen, Nat.not_lt_of_gt hlen]
  · intro hc hlen
    simp [pickBetterLine, hc, hlen]

/-- Witness for C8: the consensus-threshold hypothesis is discharged at the
concrete candidate pair `("", "")` (similarity 1). -/
theorem c8_consensus_no_judge_witness :
    lineConsensusSimilarityQ ≤ lineSimilarity "" "" ∧
    resolveLineChoice "" "" "x" =
      { text := pickBetterLine "" "", confidence := lineSimilarity "" "",
        usedJudge := false } :=
  have h : lineConsensusSimilarityQ ≤ lineSimilarity "" "" := by
    rw [show lineSimilarity "" "" = 1 from by decide]
    norm_num [lineConsensusSimilarityQ]
  ⟨h, (c8_consensus_no_judge "" "" "x" h).1⟩

/-! ## Error classification (`src/utils/error-handler.ts`) -/

/-- `ProviderType` from `core/types.ts` (`"openai" | "azure"`). -/
inductive ProviderTag where
  | openai
  | azure
deriving DecidableEq, Repr

/-- The value space of thrown JS errors as classified by `toAppError`:
a `CancelledError`, a `ProviderError` (provider tag, message, optional
HTTP-like status), any other `Error`, or a non-`Error` thrown value. -/
inductive ThrownError where
  | cancelled
  | provider (tag : ProviderTag) (message : String) (status : Option Nat)
  | jsError (name message : String)
  | nonError
deriving DecidableEq, Repr

/-- JS truthiness test `!error.status`: the status is `undefined` or `0`. -/
def statusFalsy : Option Nat → Bool
  | none => true
  | some n => n == 0

/-- `error.status >= 500` (false when the status is `undefined`; the source
only evaluates this after `!error.status` already failed). -/
def statusAtLeast500 : Option Nat → Bool
  | none => false
  | some n => 500 ≤ n

/-- The `[_\s-]` separator class of the `max[_\s-]?tokens?` regex. -/
def isSepChar (c : Char) : Bool := c == '_' || c == '-' || isJsWs c

/-- Matches `tokens?([^a-z]|$)` at the head of the list (with regex
backtracking over the optional `s` resolved: after `token`, either the string
ends, or an optional `s` is followed by the end or a non-letter, or the next
character is a non-letter). -/
def matchTokenTail : List Char → Bool
  | 't' :: 'o' :: 'k' :: 'e' :: 'n' :: rest =>
    match rest with
    | [] => true
    | c :: rest2 =>
      if c == 's' then
        match rest2 with
        | [] => true
        | d :: _ => !isLowerAZ d
      else !isLowerAZ c
  | _ => false

/-- Matches `max[_\s-]?tokens?([^a-z]|$)` at the head of the list. -/
def matchMaxAt : List Char → Bool
  | 'm' :: 'a' :: 'x' :: rest =>
    matchTokenTail rest ||
      (match rest with
       | c :: rest2 => isSepChar c && matchTokenTail rest2
       | [] => false)
  | _ => false

/-- The leading boundary `(^|[^a-z])` of the `max_tokens` regex: start of the
string, or a preceding non-letter. -/
def boundaryBeforeOk : Option Char → Bool
  | none => true
  | some p => !isLowerAZ p

/-- Left-to-right scan for `/(^|[^a-z])max[_\s-]?tokens?([^a-z]|$)/` over an
already-lowercased string; `prev` is the character before the current
position. -/
def scanForMaxTokens : Option Char → List Char → Bool
  | prev, [] => boundaryBeforeOk prev && matchMaxAt []
  | prev, c :: cs =>
    (boundaryBeforeOk prev && matchMaxAt (c :: cs)) || scanForMaxTokens (some c) cs

/-- `error.message.toLowerCase()` as a character list. -/
def lowerStrChars (s : String) : List Char := s.toList.map lowerChar

/-- The `/higher|increase|could not finish|ran out|too low/i` alternation over
an already-lowercased string. -/
def hasBudgetPhrase (m : List Char) : Bool :=
  hasSubChars m "higher".toList || hasSubChars m "increase".toList ||
    hasSubChars m "could not finish".toList || hasSubChars m "ran out".toList ||
    hasSubChars m "too low".toList

/-- `isAzureMaxTokensError` from `error-handler.ts` (lines 113–128): a
`ProviderError` from the Azure backend with status 400 whose lowercased
message contains a bounded `max_tokens`/`max tokens`/`maxtoken` reference and
one of the known "needs a larger output budget" phrases. -/
def isAzureMaxTokensError : ThrownError → Bool
  | .provider tag msg status =>
    if tag = ProviderTag.azure ∧ status = some 400 then
      scanForMaxTokens none (lowerStrChars msg) && hasBudgetPhrase (lowerStrChars msg)
    else false
  | _ => false

/-- `isRecoverableError` from `error-handler.ts` (lines 109–111), i.e. the
`recoverable` field computed by `toAppError` (lines 62–103): cancellations are
recoverable; a provider error is recoverable iff its status is falsy, 429,
`≥ 500`, or the Azure max-tokens pattern applies; every other `Error` and any
non-`Error` value is non-recoverable. -/
def isRecoverableError : ThrownError → Bool
  | .cancelled => true
  | .provider tag msg status =>
    statusFalsy status || status == some 429 || statusAtLeast500 status ||
      isAzureMaxTokensError (.provider tag msg status)
  | .jsError _ _ => false
  | .nonError => false

lemma statusFalsy_iff (status : Option Nat) :
    statusFalsy status = true ↔ status = none ∨ status = some 0 := by
  cases status <;> simp [statusFalsy]

lemma statusAtLeast500_iff (status : Option Nat) :
    statusAtLeast500 status = true ↔ ∃ s, status = some s ∧ 500 ≤ s := by
  cases status <;> simp [statusAtLeast500]

lemma isAzureMaxTokensError_iff (tag : ProviderTag) (msg : String) (status : Option Nat) :
    isAzureMaxTokensError (.provider tag msg status) = true ↔
      (tag = ProviderTag.azure ∧ status = some 400 ∧
        scanForMaxTokens none (lowerStrChars msg) = true ∧
        hasBudgetPhrase (lowerStrChars msg) = true) := by
  by_cases h : tag = ProviderTag.azure ∧ status = some 400
  · simp only [isAzureMaxTokensError, if_pos h, Bool.and_eq_true]
    constructor
    · intro hc; exact ⟨h.1, h.2, hc.1, hc.2⟩
    · intro hc; exact ⟨hc.2.2.1, hc.2.2.2⟩
  · simp only [isAzureMaxTokensError, if_neg h]
    constructor
    · intro hfalse; cases hfalse
    · intro hc; exact absurd ⟨hc.1, hc.2.1⟩ h

/-- **C2** — `isRecoverableError` classifies an error as recoverable iff it is
a cancellation, or a provider error whose HTTP-like status is absent (missing
or the no-status value `0`, both falsy in the source's `!error.status` test),
equal to 429, at least 500, or a status-400 Azure response matching the known
"needs larger output budget" pattern; every other provider status and every
unexpected error is non-recoverable. -/
theorem c2_recoverable_classification (e : ThrownError) :
    isRecoverableError e = true ↔
      (e = ThrownError.cancelled ∨
        ∃ tag msg status, e = ThrownError.provider tag msg status ∧
          (status = none ∨ status = some 0 ∨ status = some 429 ∨
            (∃ s, status = some s ∧ 500 ≤ s) ∨
            (tag = ProviderTag.azure ∧ status = some 400 ∧
              scanForMaxTokens none (lowerStrChars msg) = true ∧
              hasBudgetPhrase (lowerStrChars msg) = true))) := by
  cases e with
  | cancelled => simp [isRecoverableError]
  | provider tag msg status =>
    simp only [isRecoverableError, Bool.or_eq_true, beq_iff_eq,
      statusFalsy_iff, statusAtLeast500_iff, isAzureMaxTokensError_iff]
    constructor
    · intro h
      right
      refine ⟨tag, msg, status, rfl, ?_⟩
      rcases h with (((h | h) | h) | h)
      · rcases h with h | h
        · exact Or.inl h
        · exact Or.inr (Or.inl h)
      · exact Or.inr (Or.inr (Or.inl h))
      · exact Or.inr (Or.inr (Or.inr (Or.inl h)))
      · exact Or.inr (Or.inr (Or.inr (Or.inr h)))
    · rintro (h | ⟨tag', msg', status', heq, hdisj⟩)
      · cases h
      · injection heq with h1 h2 h3
        subst h1; subst h2; subst h3
        rcases hdisj with h | h | h | h | h
        · exact Or.inl (Or.inl (Or.inl (Or.inl h)))
        · exact Or.inl (Or.inl (Or.inl (Or.inr h)))
        · exact Or.inl (Or.inl (Or.inr h))
        · exact Or.inl (Or.inr h)
        · exact Or.inr h
  | jsError name msg =>
    simp only [isRecoverableError]
    constructor
    · intro h; cases h
    · rintro (h | ⟨tag', msg', status', heq, hdisj⟩)
      · cases h
      · cases heq
  | nonError =>
    simp only [isRecoverableError]
    constructor
    · intro h; cases h
    · rintro (h | ⟨tag', msg', status', heq, hdisj⟩)
      · cases h
      · cases heq

/-! ## The response cache (`src/providers/http.ts` lines 14–16, 74–77, 235–293)

The cache is a JS `Map` (iteration in insertion order) plus the module counter
`cacheBytesInUse`.  We model the map as an association list in insertion
order: `Map.get` finds the first matching key, `Map.delete` removes it, and
`Map.set` after a `delete` appends at the end — exactly the operations the
source performs.  Cached values stay abstract (`V`), with their
serialized-size heuristic abstracted into a function `approx : V → Nat`
(`approximateSize` returns `JSON.stringify(value).length * 2`, a
non-negative number, or the fixed fallback `8 * 1024`). -/

/-- `CachedResponse` from `http.ts` (lines 8–12). -/
structure CachedResponse (V : Type) where
  value : V
  expiresAt : Int
  approxBytes : Nat
deriving DecidableEq, Repr

/-- The module-level pair `responseCache` / `cacheBytesInUse`
(`http.ts` lines 14–16). -/
structure CacheState (V : Type) where
  entries : List (String × CachedResponse V)
  bytesInUse : Int
deriving DecidableEq, Repr

/-- `responseCache.get(key)`: first entry with the given key. -/
def cacheGet {V : Type} (key : String) : List (String × CachedResponse V) → Option (CachedResponse V)
  | [] => none
  | (k, e) :: rest => if k = key then some e else cacheGet key rest

/-- `responseCache.delete(key)`: remove the entry with the given key. -/
def cacheDelete {V : Type} (key : String) :
    List (String × CachedResponse V) → List (String × CachedResponse V)
  | [] => []
  | (k, e) :: rest => if k = key then rest else (k, e) :: cacheDelete key rest

/-- `readCache` from `http.ts` (lines 235–249): a miss leaves the cache
untouched; an expired entry is deleted and its bytes subtracted; a live hit is
moved to the end of the insertion order (`delete` + `set`) and a clone of its
value returned. -/
def readCache {V : Type} (now : Int) (key : String) (c : CacheState V) :
    CacheState V × Option V :=
  match cacheGet key c.entries with
  | none => (c, none)
  | some entry =>
    if entry.expiresAt ≤ now then
      (⟨cacheDelete key c.entries, c.bytesInUse - (entry.approxBytes : Int)⟩, none)
    else
      (⟨cacheDelete key c.entries ++ [(key, entry)], c.bytesInUse⟩, some entry.value)

/-- The `while (size > maxEntries || bytes > maxBytes)` eviction loop of
`writeCache` (`http.ts` lines 274–284): repeatedly remove the oldest (first)
entry and subtract its bytes; stop when both caps hold, the map is empty
(`oldestKey` is `undefined`), or the oldest key is the empty string (also
falsy in JS, so `if (!oldestKey) break` fires). -/
def evictLoop {V : Type} (maxEntries : Nat) (maxBytes : Int) :
    List (String × CachedResponse V) → Int → List (String × CachedResponse V) × Int
  | [], bytes => ([], bytes)
  | (k, e) :: rest, bytes =>
    if maxEntries < ((k, e) :: rest).length ∨ maxBytes < bytes then
      if k = "" then ((k, e) :: rest, bytes)
      else evictLoop maxEntries maxBytes rest (bytes - (e.approxBytes : Int))
    else ((k, e) :: rest, bytes)

/-- The overwrite handling at the start of `writeCache` (`http.ts` lines
261–265): if an entry already exists for the key, subtract its bytes and
delete it. -/
def removeExisting {V : Type} (key : String) (c : CacheState V) : CacheState V :=
  match cacheGet key c.entries with
  | some existing =>
    ⟨cacheDelete key c.entries, c.bytesInUse - (existing.approxBytes : Int)⟩
  | none => c

/-- `writeCache` from `http.ts` (lines 251–285): subtract and remove any
existing entry for the key, append the new entry (`Map.set` after `delete`)
with `expiresAt = now + ttl` and its approximate size, add its bytes, then run
the oldest-first eviction loop. -/
def writeCache {V : Type} (approx : V → Nat) (now : Int) (key : String) (v : V)
    (ttlMs : Int) (maxEntries : Nat) (maxBytes : Int) (c : CacheState V) : CacheState V :=
  let approxBytes := approx v
  let c1 := removeExisting key c
  let inserted := c1.entries ++ [(key, ⟨v, now + ttlMs, approxBytes⟩)]
  let r := evictLoop maxEntries maxBytes inserted (c1.bytesInUse + (approxBytes : Int))
  ⟨r.1, r.2⟩

/-- `clearResponseCache` from `http.ts` (lines 74–77). -/
def clearResponseCache {V : Type} : CacheState V := ⟨[], 0⟩

/-- One observable cache operation. -/
inductive CacheOp (V : Type) where
  | read (now : Int) (key : String)
  | write (now : Int) (key : String) (value : V) (ttlMs : Int)
  | clear
deriving DecidableEq, Repr

/-- Apply one operation to the cache state (caps fixed by configuration). -/
def applyCacheOp {V : Type} (approx : V → Nat) (maxEntries : Nat) (maxBytes : Int)
    (c : CacheState V) : CacheOp V → CacheState V
  | .read now key => (readCache now key c).1
  | .write now key v ttl => writeCache approx now key v ttl maxEntries maxBytes c
  | .clear => clearResponseCache

/-- Run a sequence of cache operations from the empty cache. -/
def runCacheOps {V : Type} (approx : V → Nat) (maxEntries : Nat) (maxBytes : Int)
    (ops : List (CacheOp V)) : CacheState V :=
  ops.foldl (applyCacheOp approx maxEntries maxBytes) ⟨[], 0⟩

/-- Total `approxBytes` of the entries currently present. -/
def sumBytes {V : Type} (entries : List (String × CachedResponse V)) : Int :=
  (entries.map fun p => (p.2.approxBytes : Int)).sum

/-- Keys of the association list, in insertion order. -/
def cacheKeys {V : Type} (entries : List (String × CachedResponse V)) : List String :=
  entries.map Prod.fst

/-- A write operation never uses the empty key (`buildRequestKey` always
produces a `provider|method|url|…` string). -/
def opKeyOk {V : Type} : CacheOp V → Prop
  | .write _ key _ _ => key ≠ ""
  | _ => True

instance opKeyOkDecidable {V : Type} : DecidablePred (opKeyOk (V := V)) := fun op =>
  match op with
  | .write _ key _ _ => inferInstanceAs (Decidable (key ≠ ""))
  | .read _ _ => inferInstanceAs (Decidable True)
  | .clear => inferInstanceAs (Decidable True)

/-! ### Cache invariants -/

section CacheLemmas

variable {V : Type}

@[simp] lemma sumBytes_nil : sumBytes ([] : List (String × CachedResponse V)) = 0 := rfl

@[simp] lemma sumBytes_cons (k : String) (e : CachedResponse V)
    (rest : List (String × CachedResponse V)) :
    sumBytes ((k, e) :: rest) = (e.approxBytes : Int) + sumBytes rest := by
  simp [sumBytes]

lemma sumBytes_append (l₁ l₂ : List (String × CachedResponse V)) :
    sumBytes (l₁ ++ l₂) = sumBytes l₁ + sumBytes l₂ := by
  simp [sumBytes]

lemma sumBytes_nonneg (entries : List (String × CachedResponse V)) :
    0 ≤ sumBytes entries := by
  induction entries with
  | nil => simp
  | cons p rest ih =>
    obtain ⟨k, e⟩ := p
    have : (0 : Int) ≤ (e.approxBytes : Int) := Int.ofNat_nonneg _
    rw [sumBytes_cons]
    omega

lemma cacheDelete_of_get_none (key : String) (entries : List (String × CachedResponse V))
    (h : cacheGet key entries = none) : cacheDelete key entries = entries := by
  induction entries with
  | nil => rfl
  | cons p rest ih =>
    obtain ⟨k, e⟩ := p
    by_cases hk : k = key
    · rw [cacheGet, if_pos hk] at h; cases h
    · rw [cacheGet, if_neg hk] at h
      rw [cacheDelete, if_neg hk, ih h]

lemma cacheGet_none_not_mem (key : String) (entries : List (String × CachedResponse V))
    (h : cacheGet key entries = none) : key ∉ cacheKeys entries := by
  induction entries with
  | nil => simp [cacheKeys]
  | cons p rest ih =>
    obtain ⟨k, e⟩ := p
    by_cases hk : k = key
    · rw [cacheGet, if_pos hk] at h; cases h
    · rw [cacheGet, if_neg hk] at h
      simp only [cacheKeys, List.map_cons, List.mem_cons]
      rintro (hc | hc)
      · exact hk hc.symm
      · exact ih h hc

lemma cacheGet_some_key_mem (key : String) (entries : List (String × CachedResponse V))
    (e : CachedResponse V) (h : cacheGet key entries = some e) : key ∈ cacheKeys entries := by
  induction entries with
  | nil => cases h
  | cons p rest ih =>
    obtain ⟨k, e'⟩ := p
    by_cases hk : k = key
    · simp [cacheKeys, hk]
    · rw [cacheGet, if_neg hk] at h
      simp only [cacheKeys, List.map_cons, List.mem_cons]
      exact Or.inr (ih h)

lemma sumBytes_cacheDelete (key : String) (entries : List (String × CachedResponse V))
    (e : CachedResponse V) (h : cacheGet key entries = some e) :
    sumBytes (cacheDelete key entries) = sumBytes entries - (e.approxBytes : Int) := by
  induction entries with
  | nil => cases h
  | cons p rest ih =>
    obtain ⟨k, e'⟩ := p
    by_cases hk : k = key
    · rw [cacheGet, if_pos hk] at h
      injection h with he
      rw [cacheDelete, if_pos hk, sumBytes_cons, he]
      omega
    · rw [cacheGet, if_neg hk] at h
      rw [cacheDelete, if_neg hk, sumBytes_cons, sumBytes_cons, ih h]
      omega

lemma length_cacheDelete_of_get (key : String) (entries : List (String × CachedResponse V))
    (e : CachedResponse V) (h : cacheGet key entries = some e) :
    (cacheDelete key entries).length + 1 = entries.length := by
  induction entries with
  | nil => cases h
  | cons p rest ih =>
    obtain ⟨k, e'⟩ := p
    by_cases hk : k = key
    · rw [cacheDelete, if_pos hk]; rfl
    · rw [cacheGet, if_neg hk] at h
      rw [cacheDelete, if_neg hk]
      have hih := ih h
      simp only [List.length_cons]
      omega

lemma cacheDelete_sublist (key : String) (entries : List (String × CachedResponse V)) :
    List.Sublist (cacheDelete key entries) entries := by
  induction entries with
  | nil => exact List.Sublist.refl _
  | cons p rest ih =>
    obtain ⟨k, e⟩ := p
    by_cases hk : k = key
    · rw [cacheDelete, if_pos hk]
      exact List.Sublist.cons _ (List.Sublist.refl _)
    · rw [cacheDelete, if_neg hk]
      exact List.Sublist.cons₂ _ ih

lemma nodup_keys_cacheDelete (key : String) (entries : List (String × CachedResponse V))
    (h : (cacheKeys entries).Nodup) : (cacheKeys (cacheDelete key entries)).Nodup :=
  List.Nodup.sublist (List.Sublist.map Prod.fst (cacheDelete_sublist key entries)) h

lemma key_not_mem_cacheDelete (key : String) (entries : List (String × CachedResponse V))
    (h : (cacheKeys entries).Nodup) : key ∉ cacheKeys (cacheDelete key entries) := by
  induction entries with
  | nil => simp [cacheKeys, cacheDelete]
  | cons p rest ih =>
    obtain ⟨k, e⟩ := p
    simp only [cacheKeys, List.map_cons, List.nodup_cons] at h
    by_cases hk : k = key
    · rw [cacheDelete, if_pos hk]
      subst hk
      exact h.1
    · rw [cacheDelete, if_neg hk]
      simp only [cacheKeys, List.map_cons, List.mem_cons]
      rintro (hc | hc)
      · exact hk hc.symm
      · exact ih h.2 hc

/-- Well-formedness of the modelled cache: the byte counter equals the sum of
the stored sizes, and keys are unique (as `Map` keys are). -/
def CacheWF (c : CacheState V) : Prop :=
  c.bytesInUse = sumBytes c.entries ∧ (cacheKeys c.entries).Nodup

lemma nodup_keys_append_key (key : String) (e : CachedResponse V)
    (l : List (String × CachedResponse V)) (hnd : (cacheKeys l).Nodup)
    (hkey : key ∉ cacheKeys l) : (cacheKeys (l ++ [(key, e)])).Nodup := by
  simp only [cacheKeys, List.map_append, List.map_cons, List.map_nil]
  rw [List.nodup_append]
  refine ⟨hnd, List.nodup_singleton _, ?_⟩
  intro x hx hx'
  simp only [List.mem_singleton] at hx'
  subst hx'
  exact hkey hx

lemma readCache_wf (now : Int) (key : String) (c : CacheState V) (h : CacheWF c) :
    CacheWF (readCache now key c).1 := by
  obtain ⟨hacc, hnd⟩ := h
  unfold readCache
  split
  · exact ⟨hacc, hnd⟩
  · rename_i entry hget
    split
    · refine ⟨?_, nodup_keys_cacheDelete key c.entries hnd⟩
      simp only
      rw [sumBytes_cacheDelete key c.entries entry hget, hacc]
    · constructor
      · simp only
        rw [sumBytes_append, sumBytes_cacheDelete key c.entries entry hget, hacc]
        simp
      · exact nodup_keys_append_key key entry _ (nodup_keys_cacheDelete key c.entries hnd)
          (key_not_mem_cacheDelete key c.entries hnd)

lemma removeExisting_wf (key : String) (c : CacheState V) (h : CacheWF c) :
    CacheWF (removeExisting key c) := by
  obtain ⟨hacc, hnd⟩ := h
  unfold removeExisting
  split
  · rename_i existing hget
    refine ⟨?_, nodup_keys_cacheDelete key c.entries hnd⟩
    simp only
    rw [sumBytes_cacheDelete key c.entries existing hget, hacc]
  · exact ⟨hacc, hnd⟩

lemma removeExisting_key_not_mem (key : String) (c : CacheState V)
    (hnd : (cacheKeys c.entries).Nodup) : key ∉ cacheKeys (removeExisting key c).entries := by
  unfold removeExisting
  split
  · exact key_not_mem_cacheDelete key c.entries hnd
  · rename_i hget
    exact cacheGet_none_not_mem key c.entries hget

lemma removeExisting_entries_sublist (key : String) (c : CacheState V) :
    List.Sublist (removeExisting key c).entries c.entries := by
  unfold removeExisting
  split
  · exact cacheDelete_sublist key c.entries
  · exact List.Sublist.refl _

lemma evictLoop_wf_suffix (maxEntries : Nat) (maxBytes : Int) :
    ∀ (entries : List (String × CachedResponse V)) (bytes : Int),
      bytes = sumBytes entries →
      (evictLoop maxEntries maxBytes entries bytes).2 =
          sumBytes (evictLoop maxEntries maxBytes entries bytes).1 ∧
        List.IsSuffix (evictLoop maxEntries maxBytes entries bytes).1 entries := by
  intro entries
  induction entries with
  | nil =>
    intro bytes hacc
    rw [evictLoop]
    exact ⟨by simpa using hacc, List.suffix_refl _⟩
  | cons p rest ih =>
    intro bytes hacc
    obtain ⟨k, e⟩ := p
    rw [evictLoop]
    by_cases hcond : maxEntries < ((k, e) :: rest).length ∨ maxBytes < bytes
    · rw [if_pos hcond]
      by_cases hk : k = ""
      · rw [if_pos hk]
        exact ⟨hacc, List.suffix_refl _⟩
      · rw [if_neg hk]
        have hacc' : bytes - (e.approxBytes : Int) = sumBytes rest := by
          rw [hacc, sumBytes_cons]; omega
        obtain ⟨h1, h2⟩ := ih (bytes - (e.approxBytes : Int)) hacc'
        exact ⟨h1, List.IsSuffix.trans h2 (List.suffix_cons _ _)⟩
    · rw [if_neg hcond]
      exact ⟨hacc, List.suffix_refl _⟩

lemma evictLoop_caps (maxEntries : Nat) (maxBytes : Int) (h0 : 0 ≤ maxBytes) :
    ∀ (entries : List (String × CachedResponse V)) (bytes : Int),
      bytes = sumBytes entries → (∀ p ∈ entries, p.1 ≠ "") →
      (evictLoop maxEntries maxBytes entries bytes).1.length ≤ maxEntries ∧
        (evictLoop maxEntries maxBytes entries bytes).2 ≤ maxBytes := by
  intro entries
  induction entries with
  | nil =>
    intro bytes hacc _
    rw [evictLoop]
    simp only [List.length_nil]
    exact ⟨Nat.zero_le _, by simp at hacc; omega⟩
  | cons p rest ih =>
    intro bytes hacc hkeys
    obtain ⟨k, e⟩ := p
    rw [evictLoop]
    by_cases hcond : maxEntries < ((k, e) :: rest).length ∨ maxBytes < bytes
    · rw [if_pos hcond]
      have hk : k ≠ "" := hkeys (k, e) (List.mem_cons_self _ _)
      rw [if_neg hk]
      have hacc' : bytes - (e.approxBytes : Int) = sumBytes rest := by
        rw [hacc, sumBytes_cons]; omega
      exact ih (bytes - (e.approxBytes : Int)) hacc'
        (fun p hp => hkeys p (List.mem_cons_of_mem _ hp))
    · rw [if_neg hcond]
      push_neg at hcond
      exact ⟨hcond.1, hcond.2⟩

lemma writeCache_wf (approx : V → Nat) (now : Int) (key : String) (v : V)
    (ttlMs : Int) (maxEntries : Nat) (maxBytes : Int) (c : CacheState V)
    (h : CacheWF c) : CacheWF (writeCache approx now key v ttlMs maxEntries maxBytes c) := by
  have h1 := removeExisting_wf key c h
  have hkey1 := removeExisting_key_not_mem key c h.2
  have haccIns :
      (removeExisting key c).bytesInUse + ((approx v : Nat) : Int) =
        sumBytes ((removeExisting key c).entries ++ [(key, ⟨v, now + ttlMs, approx v⟩)]) := by
    rw [sumBytes_append, h1.1]
    simp
  obtain ⟨he1, he2⟩ := evictLoop_wf_suffix maxEntries maxBytes
    ((removeExisting key c).entries ++ [(key, ⟨v, now + ttlMs, approx v⟩)])
    ((removeExisting key c).bytesInUse + ((approx v : Nat) : Int)) haccIns
  have hndIns := nodup_keys_append_key key ⟨v, now + ttlMs, approx v⟩ _ h1.2 hkey1
  exact ⟨he1,
    List.Nodup.sublist (List.Sublist.map Prod.fst (List.IsSuffix.sublist he2)) hndIns⟩

/-- The eviction loop only ever removes a prefix of the insertion order: what
survives is a suffix of the pre-eviction entry list (oldest-first eviction). -/
lemma evictLoop_suffix (maxEntries : Nat) (maxBytes : Int) :
    ∀ (entries : List (String × CachedResponse V)) (bytes : Int),
      List.IsSuffix (evictLoop maxEntries maxBytes entries bytes).1 entries := by
  intro entries
  induction entries with
  | nil =>
    intro bytes
    rw [evictLoop]
  | cons p rest ih =>
    intro bytes
    obtain ⟨k, e⟩ := p
    rw [evictLoop]
    by_cases hcond : maxEntries < ((k, e) :: rest).length ∨ maxBytes < bytes
    · rw [if_pos hcond]
      by_cases hk : k = ""
      · rw [if_pos hk]
      · rw [if_neg hk]
        exact List.IsSuffix.trans (ih _) (List.suffix_cons _ _)
    · rw [if_neg hcond]

/-- Full invariant for the cap claim: well-formedness, non-empty keys, and
both caps satisfied. -/
def CacheInv3 (maxEntries : Nat) (maxBytes : Int) (c : CacheState V) : Prop :=
  CacheWF c ∧ (∀ p ∈ c.entries, p.1 ≠ "") ∧
    c.entries.length ≤ maxEntries ∧ c.bytesInUse ≤ maxBytes

lemma readCache_inv3 (maxEntries : Nat) (maxBytes : Int) (now : Int) (key : String)
    (c : CacheState V) (h : CacheInv3 maxEntries maxBytes c) :
    CacheInv3 maxEntries maxBytes (readCache now key c).1 := by
  obtain ⟨hwf, hk, hlen, hbytes⟩ := h
  refine ⟨readCache_wf now key c hwf, ?_⟩
  unfold readCache
  split
  · exact ⟨hk, hlen, hbytes⟩
  · rename_i entry hget
    split
    · refine ⟨?_, ?_, ?_⟩
      · intro p hp
        exact hk p (List.Sublist.mem hp (cacheDelete_sublist key c.entries))
      · exact le_trans (List.Sublist.length_le (cacheDelete_sublist key c.entries)) hlen
      · simp only
        have : (0 : Int) ≤ (entry.approxBytes : Int) := Int.ofNat_nonneg _
        omega
    · have hkeymem : key ∈ cacheKeys c.entries := cacheGet_some_key_mem key c.entries entry hget
      have hkeyne : key ≠ "" := by
        simp only [cacheKeys, List.mem_map] at hkeymem
        obtain ⟨p, hp, hpk⟩ := hkeymem
        exact hpk ▸ hk p hp
      refine ⟨?_, ?_, hbytes⟩
      · intro p hp
        rw [List.mem_append] at hp
        rcases hp with hp | hp
        · exact hk p (List.Sublist.mem hp (cacheDelete_sublist key c.entries))
        · simp only [List.mem_singleton] at hp
          subst hp
          exact hkeyne
      · simp only [List.length_append, List.length_singleton]
        have := length_cacheDelete_of_get key c.entries entry hget
        omega

lemma writeCache_inv3 (approx : V → Nat) (maxEntries : Nat) (maxBytes : Int)
    (now : Int) (key : String) (v : V) (ttlMs : Int) (c : CacheState V)
    (h0 : 0 ≤ maxBytes) (hkey : key ≠ "") (h : CacheInv3 maxEntries maxBytes c) :
    CacheInv3 maxEntries maxBytes (writeCache approx now key v ttlMs maxEntries maxBytes c) := by
  obtain ⟨hwf, hk, _, _⟩ := h
  have hwf' := writeCache_wf approx now key v ttlMs maxEntries maxBytes c hwf
  have h1 := removeExisting_wf key c hwf
  have haccIns :
      (removeExisting key c).bytesInUse + ((approx v : Nat) : Int) =
        sumBytes ((removeExisting key c).entries ++ [(key, ⟨v, now + ttlMs, approx v⟩)]) := by
    rw [sumBytes_append, h1.1]
    simp
  have hkIns : ∀ p ∈ (removeExisting key c).entries ++ [(key, ⟨v, now + ttlMs, approx v⟩)],
      p.1 ≠ "" := by
    intro p hp
    rw [List.mem_append] at hp
    rcases hp with hp | hp
    · exact hk p (List.Sublist.mem hp (removeExisting_entries_sublist key c))
    · simp only [List.mem_singleton] at hp
      subst hp
      exact hkey
  have hcaps := evictLoop_caps maxEntries maxBytes h0
    ((removeExisting key c).entries ++ [(key, ⟨v, now + ttlMs, approx v⟩)])
    ((removeExisting key c).bytesInUse + ((approx v : Nat) : Int)) haccIns hkIns
  have hsuf := evictLoop_suffix maxEntries maxBytes
    ((removeExisting key c).entries ++ [(key, ⟨v, now + ttlMs, approx v⟩)])
    ((removeExisting key c).bytesInUse + ((approx v : Nat) : Int))
  exact ⟨hwf', fun p hp => hkIns p (List.Sublist.mem hp (List.IsSuffix.sublist hsuf)),
    hcaps.1, hcaps.2⟩

lemma clear_inv3 (maxEntries : Nat) (maxBytes : Int) (h0 : 0 ≤ maxBytes) :
    CacheInv3 maxEntries maxBytes (clearResponseCache : CacheState V) :=
  ⟨⟨rfl, List.nodup_nil⟩, fun p hp => absurd hp (List.not_mem_nil p), Nat.zero_le _, h0⟩

lemma foldl_inv3 (approx : V → Nat) (maxEntries : Nat) (maxBytes : Int)
    (h0 : 0 ≤ maxBytes) :
    ∀ (ops : List (CacheOp V)) (c : CacheState V), CacheInv3 maxEntries maxBytes c →
      (∀ op ∈ ops, opKeyOk op) →
      CacheInv3 maxEntries maxBytes (ops.foldl (applyCacheOp approx maxEntries maxBytes) c) := by
  intro ops
  induction ops with
  | nil => intro c hc _; exact hc
  | cons op rest ih =>
    intro c hc hops
    rw [List.foldl_cons]
    refine ih _ ?_ (fun o ho => hops o (List.mem_cons_of_mem _ ho))
    have hop := hops op (List.mem_cons_self _ _)
    cases op with
    | read now key => exact readCache_inv3 maxEntries maxBytes now key c hc
    | write now key v ttl => exact writeCache_inv3 approx maxEntries maxBytes now key v ttl c h0 hop hc
    | clear => exact clear_inv3 maxEntries maxBytes h0

lemma clear_wf : CacheWF (clearResponseCache : CacheState V) := ⟨rfl, List.nodup_nil⟩

lemma foldl_wf (approx : V → Nat) (maxEntries : Nat) (maxBytes : Int) :
    ∀ (ops : List (CacheOp V)) (c : CacheState V), CacheWF c →
      CacheWF (ops.foldl (applyCacheOp approx maxEntries maxBytes) c) := by
  intro ops
  induction ops with
  | nil => intro c hc; exact hc
  | cons op rest ih =>
    intro c hc
    rw [List.foldl_cons]
    refine ih _ ?_
    cases op with
    | read now key => exact readCache_wf now key c hc
    | write now key v ttl => exact writeCache_wf approx now key v ttl maxEntries maxBytes c hc
    | clear => exact clear_wf

end CacheLemmas

/-- **C10** — after every sequence of response-cache operations starting from
the empty cache (reads with their expiry eviction, writes with overwrite
handling and oldest-first eviction, and `clearResponseCache`), the counter
`cacheBytesInUse` equals the sum of the `approxBytes` fields of the entries
present, is never negative, and is `0` whenever the map is empty. -/
theorem c10_cache_byte_accounting (V : Type) (approx : V → Nat) (maxEntries : Nat)
    (maxBytes : Int) (ops : List (CacheOp V)) :
    (runCacheOps approx maxEntries maxBytes ops).bytesInUse =
        sumBytes (runCacheOps approx maxEntries maxBytes ops).entries ∧
      0 ≤ (runCacheOps approx maxEntries maxBytes ops).bytesInUse ∧
      ((runCacheOps approx maxEntries maxBytes ops).entries = [] →
        (runCacheOps approx maxEntries maxBytes ops).bytesInUse = 0) := by
  have hwf : CacheWF (runCacheOps approx maxEntries maxBytes ops) :=
    foldl_wf approx maxEntries maxBytes ops ⟨[], 0⟩ ⟨rfl, List.nodup_nil⟩
  refine ⟨hwf.1, ?_, ?_⟩
  · rw [hwf.1]
    exact sumBytes_nonneg _
  · intro hempty
    rw [hwf.1, hempty]
    rfl

/-- **C3** — for every sequence of reads and writes from the empty cache (with
fixed configuration caps, a non-negative byte budget, and the source's
invariant that request keys are never the empty string), after each operation
the cache holds at most `maxEntries` entries and at most `maxBytes` bytes; and
any eviction a write performs removes entries oldest-first in insertion order
(the surviving entries are a suffix of the pre-eviction insertion order). -/
theorem c3_cache_caps_and_oldest_first (V : Type) (approx : V → Nat)
    (maxEntries : Nat) (maxBytes : Int) (ops : List (CacheOp V))
    (entries : List (String × CachedResponse V)) (bytes : Int)
    (h0 : 0 ≤ maxBytes) (hops : ∀ op ∈ ops, opKeyOk op) :
    ((runCacheOps approx maxEntries maxBytes ops).entries.length ≤ maxEntries ∧
      (runCacheOps approx maxEntries maxBytes ops).bytesInUse ≤ maxBytes) ∧
    List.IsSuffix (evictLoop maxEntries maxBytes entries bytes).1 entries := by
  have hinv := foldl_inv3 approx maxEntries maxBytes h0 ops ⟨[], 0⟩
    ⟨⟨rfl, List.nodup_nil⟩, fun p hp => absurd hp (List.not_mem_nil p), Nat.zero_le _, h0⟩ hops
  exact ⟨⟨hinv.2.2.1, hinv.2.2.2⟩, evictLoop_suffix maxEntries maxBytes entries bytes⟩

/-- Witness for C3: caps hold after a concrete two-write run overflowing a
one-entry cache, and eviction leaves a suffix at a concrete pre-eviction
state. -/
theorem c3_cache_caps_and_oldest_first_witness :
    (0 : Int) ≤ 100 ∧
    ((runCacheOps (fun _ => 2) 1 100
        [CacheOp.write 0 "k1" (5 : Nat) 10, CacheOp.write 1 "k2" 6 10]).entries.length ≤ 1 ∧
      (runCacheOps (fun _ => 2) 1 100
        [CacheOp.write 0 "k1" (5 : Nat) 10, CacheOp.write 1 "k2" 6 10]).bytesInUse ≤ 100) ∧
    List.IsSuffix (evictLoop 1 100 [("a", ⟨(7 : Nat), 3, 2⟩), ("b", ⟨8, 3, 2⟩)] 4).1
      [("a", ⟨(7 : Nat), 3, 2⟩), ("b", ⟨8, 3, 2⟩)] :=
  ⟨by decide,
    (c3_cache_caps_and_oldest_first Nat (fun _ => 2) 1 100
      [CacheOp.write 0 "k1" (5 : Nat) 10, CacheOp.write 1 "k2" 6 10]
      [("a", ⟨(7 : Nat), 3, 2⟩), ("b", ⟨8, 3, 2⟩)] 4 (by decide) (by decide)).1,
    (c3_cache_caps_and_oldest_first Nat (fun _ => 2) 1 100
      [CacheOp.write 0 "k1" (5 : Nat) 10, CacheOp.write 1 "k2" 6 10]
      [("a", ⟨(7 : Nat), 3, 2⟩), ("b", ⟨8, 3, 2⟩)] 4 (by decide) (by decide)).2⟩

/-! ## The concurrency scheduler (`runWithConcurrency`, `transcription.ts`
lines 141–194)

`runWithConcurrency` runs on a single-threaded event loop: each task's
settlement callbacks (`then`/`catch` followed by `finally`) are modelled as
one atomic step, and the nondeterministic order in which in-flight tasks
settle is the step relation's choice of which running index to settle next.
The state carries the source's mutable locals (`results`, `index` as
`nextIndex`, `inFlight`, `completed`, `rejected`), the shared cancellation
token, the promise outcome, and — as bookkeeping for the event model — the
list `running` of indices started but not yet settled. -/

/-- The result a task produces when it settles. -/
inductive TaskOutcome (T : Type) where
  | ok (value : T)
  | err
deriving DecidableEq, Repr

/-- How the promise returned by `runWithConcurrency` settles. -/
inductive SchedOutcome (T : Type) where
  | resolved (results : List (Option T))
  | cancelledReject
  | errorReject
deriving DecidableEq, Repr

/-- State of one `runWithConcurrency` execution. -/
structure SchedState (T : Type) where
  results : List (Option T)
  nextIndex : Nat
  inFlight : Nat
  completed : Nat
  running : List Nat
  rejected : Bool
  tokenCancelled : Bool
  outcome : Option (SchedOutcome T)
deriving DecidableEq, Repr

/-- A promise settles at most once: `resolve`/`reject` after settlement are
no-ops. -/
def settleOutcome {T : Type} (o : SchedOutcome T) (s : SchedState T) : SchedState T :=
  match s.outcome with
  | none => { s with outcome := some o }
  | some _ => s

/-- The `while (inFlight < limit && index < tasks.length)` launch loop
(lines 163–189); the fuel argument (always `n - nextIndex` at the call site)
makes it structurally recursive.  Launching task `current = index++` appends
it to the started-but-unsettled list and bumps `inFlight`. -/
def launchLoop {T : Type} (limit n : Nat) : Nat → SchedState T → SchedState T
  | 0, s => s
  | fuel + 1, s =>
    if s.inFlight < limit ∧ s.nextIndex < n then
      launchLoop limit n fuel
        { s with running := s.running ++ [s.nextIndex],
                 inFlight := s.inFlight + 1,
                 nextIndex := s.nextIndex + 1 }
    else s

/-- `launchNext` (lines 153–190): bail out after rejection, reject with a
cancellation error if the token is cancelled, otherwise launch tasks while
the in-flight count is below the limit. -/
def launchNext {T : Type} (limit n : Nat) (s : SchedState T) : SchedState T :=
  if s.rejected then s
  else if s.tokenCancelled then
    settleOutcome SchedOutcome.cancelledReject { s with rejected := true }
  else launchLoop limit n (n - s.nextIndex) s

/-- The `catch` callback (lines 172–178): on the first rejection, set the
`rejected` flag, cancel the token, and reject the promise with the task's
error; later rejections are ignored. -/
def catchStep {T : Type} (s0 : SchedState T) : SchedState T :=
  if s0.rejected then s0
  else settleOutcome SchedOutcome.errorReject
    { s0 with rejected := true, tokenCancelled := true }

/-- The `finally` callback (lines 179–188): decrement `inFlight`, then — if
not rejected — resolve when every task has completed, otherwise launch more
work. -/
def finallyStep {T : Type} (limit n : Nat) (s1 : SchedState T) : SchedState T :=
  let s2 := { s1 with inFlight := s1.inFlight - 1 }
  if s2.rejected then s2
  else if s2.completed = n then settleOutcome (SchedOutcome.resolved s2.results) s2
  else launchNext limit n s2

/-- Settlement of the in-flight task `i` (lines 167–188): the `then` callback
stores `results[current] = result` and bumps `completed` on success; the
`catch` callback runs on failure; the `finally` callback always follows. -/
def settle {T : Type} (tasks : Nat → TaskOutcome T) (limit n i : Nat)
    (s : SchedState T) : SchedState T :=
  let s0 := { s with running := s.running.erase i }
  match tasks i with
  | .ok v =>
    finallyStep limit n
      { s0 with results := s0.results.set i (some v), completed := s0.completed + 1 }
  | .err => finallyStep limit n (catchStep s0)

/-- The state constructed by `runWithConcurrency` before the initial
`launchNext()` call: empty results slots, counters at zero, token possibly
already cancelled. -/
def initState (T : Type) (n : Nat) (tokenStart : Bool) : SchedState T :=
  { results := List.replicate n none, nextIndex := 0, inFlight := 0, completed := 0,
    running := [], rejected := false, tokenCancelled := tokenStart, outcome := none }

/-- Reachable states of one `runWithConcurrency` run: the state right after
the initial `launchNext()`, closed under settling any in-flight task. -/
inductive SchedReach {T : Type} (tasks : Nat → TaskOutcome T) (limit n : Nat)
    (tokenStart : Bool) : SchedState T → Prop where
  | start : SchedReach tasks limit n tokenStart (launchNext limit n (initState T n tokenStart))
  | step {s : SchedState T} {i : Nat} :
      SchedReach tasks limit n tokenStart s → i ∈ s.running →
      SchedReach tasks limit n tokenStart (settle tasks limit n i s)

@[simp] lemma settleOutcome_results {T : Type} (o : SchedOutcome T) (s : SchedState T) :
    (settleOutcome o s).results = s.results := by
  unfold settleOutcome; split <;> rfl

@[simp] lemma settleOutcome_nextIndex {T : Type} (o : SchedOutcome T) (s : SchedState T) :
    (settleOutcome o s).nextIndex = s.nextIndex := by
  unfold settleOutcome; split <;> rfl

@[simp] lemma settleOutcome_inFlight {T : Type} (o : SchedOutcome T) (s : SchedState T) :
    (settleOutcome o s).inFlight = s.inFlight := by
  unfold settleOutcome; split <;> rfl

@[simp] lemma settleOutcome_completed {T : Type} (o : SchedOutcome T) (s : SchedState T) :
    (settleOutcome o s).completed = s.completed := by
  unfold settleOutcome; split <;> rfl

@[simp] lemma settleOutcome_running {T : Type} (o : SchedOutcome T) (s : SchedState T) :
    (settleOutcome o s).running = s.running := by
  unfold settleOutcome; split <;> rfl

@[simp] lemma settleOutcome_rejected {T : Type} (o : SchedOutcome T) (s : SchedState T) :
    (settleOutcome o s).rejected = s.rejected := by
  unfold settleOutcome; split <;> rfl

@[simp] lemma settleOutcome_tokenCancelled {T : Type} (o : SchedOutcome T) (s : SchedState T) :
    (settleOutcome o s).tokenCancelled = s.tokenCancelled := by
  unfold settleOutcome; split <;> rfl

/-! ### C6: the in-flight count never exceeds the limit -/

/-- The counter matches the started-but-unsettled set and respects the cap. -/
def InvC6 {T : Type} (limit : Nat) (s : SchedState T) : Prop :=
  s.inFlight = s.running.length ∧ s.inFlight ≤ limit

lemma launchLoop_invC6 {T : Type} (limit n : Nat) :
    ∀ (fuel : Nat) (s : SchedState T), InvC6 limit s → InvC6 limit (launchLoop limit n fuel s) := by
  intro fuel
  induction fuel with
  | zero => intro s h; exact h
  | succ fuel ih =>
    intro s h
    rw [launchLoop]
    by_cases hc : s.inFlight < limit ∧ s.nextIndex < n
    · rw [if_pos hc]
      refine ih _ ⟨?_, ?_⟩
      · simp [h.1]
      · simpa using hc.1
    · rw [if_neg hc]
      exact h

lemma launchNext_invC6 {T : Type} (limit n : Nat) (s : SchedState T) (h : InvC6 limit s) :
    InvC6 limit (launchNext limit n s) := by
  unfold launchNext
  split
  · exact h
  · split
    · exact ⟨by simp [h.1], by simp [h.2]⟩
    · exact launchLoop_invC6 limit n _ s h

@[simp] lemma catchStep_running {T : Type} (s0 : SchedState T) :
    (catchStep s0).running = s0.running := by
  unfold catchStep; split <;> simp

@[simp] lemma catchStep_inFlight {T : Type} (s0 : SchedState T) :
    (catchStep s0).inFlight = s0.inFlight := by
  unfold catchStep; split <;> simp

@[simp] lemma catchStep_completed {T : Type} (s0 : SchedState T) :
    (catchStep s0).completed = s0.completed := by
  unfold catchStep; split <;> simp

lemma finallyStep_invC6 {T : Type} (limit n : Nat) (s1 : SchedState T)
    (h1 : s1.inFlight = s1.running.length + 1) (h2 : s1.inFlight ≤ limit) :
    InvC6 limit (finallyStep limit n s1) := by
  simp only [finallyStep]
  split
  · exact ⟨by simp only; omega, by simp only; omega⟩
  · split
    · refine ⟨?_, ?_⟩ <;>
        simp only [settleOutcome_inFlight, settleOutcome_running] <;> omega
    · exact launchNext_invC6 limit n _ ⟨by simp only; omega, by simp only; omega⟩

lemma settle_invC6 {T : Type} (tasks : Nat → TaskOutcome T) (limit n i : Nat)
    (s : SchedState T) (h : InvC6 limit s) (hi : i ∈ s.running) :
    InvC6 limit (settle tasks limit n i s) := by
  obtain ⟨h1, h2⟩ := h
  have hlen : (s.running.erase i).length + 1 = s.running.length :=
    List.length_erase_add_one hi
  simp only [settle]
  split
  · exact finallyStep_invC6 limit n _ (by simp only; omega) (by simp only; omega)
  · exact finallyStep_invC6 limit n _
      (by simp only [catchStep_inFlight, catchStep_running]; omega)
      (by simp only [catchStep_inFlight]; omega)

/-- **C6** — in every reachable state of a `runWithConcurrency` execution, the
number of tasks started but not yet settled equals the `inFlight` counter and
never exceeds the configured limit. -/
theorem c6_inFlight_never_exceeds_limit (T : Type) (tasks : Nat → TaskOutcome T)
    (limit n : Nat) (tokenStart : Bool) (s : SchedState T)
    (h : SchedReach tasks limit n tokenStart s) :
    s.running.length ≤ limit ∧ s.inFlight = s.running.length := by
  have hinv : InvC6 limit s := by
    induction h with
    | start =>
      exact launchNext_invC6 limit n _ ⟨rfl, Nat.zero_le _⟩
    | step hreach hi ih =>
      exact settle_invC6 tasks limit n _ _ ih hi
  exact ⟨hinv.1 ▸ hinv.2, hinv.1⟩

/-- Witness for C6: the reachability hypothesis discharged at the initial
state of a concrete run (two tasks, limit 1). -/
theorem c6_inFlight_never_exceeds_limit_witness :
    (launchNext 1 2 (initState Nat 2 false)).running.length ≤ 1 ∧
      (launchNext 1 2 (initState Nat 2 false)).inFlight =
        (launchNext 1 2 (initState Nat 2 false)).running.length :=
  c6_inFlight_never_exceeds_limit Nat (fun i => TaskOutcome.ok i) 1 2 false _
    SchedReach.start

/-! ### C7: a pre-cancelled token rejects before any task starts -/

/-- **C7** — if the token is already cancelled when `runWithConcurrency` is
invoked, the only reachable state is the one produced by the initial
`launchNext()`: the promise is rejected with the cancellation outcome, no task
was ever launched (`nextIndex = 0`), and nothing is in flight. -/
theorem c7_precancelled_rejects_without_tasks (T : Type) (tasks : Nat → TaskOutcome T)
    (limit n : Nat) (s : SchedState T) (h : SchedReach tasks limit n true s) :
    s = launchNext limit n (initState T n true) ∧
      s.outcome = some SchedOutcome.cancelledReject ∧
      s.running = [] ∧ s.nextIndex = 0 := by
  have hstart : launchNext limit n (initState T n true) =
      settleOutcome SchedOutcome.cancelledReject
        { initState T n true with rejected := true } := by
    simp [launchNext, initState]
  have hfields : (launchNext limit n (initState T n true)).outcome =
        some SchedOutcome.cancelledReject ∧
      (launchNext limit n (initState T n true)).running = [] ∧
      (launchNext limit n (initState T n true)).nextIndex = 0 := by
    rw [hstart]
    simp [settleOutcome, initState]
  induction h with
  | start => exact ⟨rfl, hfields⟩
  | step hreach hi ih =>
    rw [ih.2.2.1] at hi
    cases hi

/-! ### C5: output order equals submission order -/

/-- Invariant of an all-successful, never-cancelled run with task results
`f`: counters are consistent, every settled slot `j` already holds `f j`, and
the promise (if settled) resolved with the in-order result array. -/
structure InvC5 {T : Type} (f : Nat → T) (n : Nat) (s : SchedState T) : Prop where
  resLen : s.results.length = n
  nextLe : s.nextIndex ≤ n
  notRejected : s.rejected = false
  notCancelled : s.tokenCancelled = false
  runNodup : s.running.Nodup
  runBound : ∀ i ∈ s.running, i < s.nextIndex
  counter : s.completed + s.running.length = s.nextIndex
  resVal : ∀ j, j < s.nextIndex → j ∉ s.running → s.results.get? j = some (some (f j))
  outcomeOk : s.outcome = none ∨
    s.outcome = some (SchedOutcome.resolved ((List.range n).map fun k => some (f k)))

/-- A result array of length `n` holding `f j` at every index is exactly the
in-order array of all task results. -/
lemma results_eq_inorder {T : Type} (f : Nat → T) (n : Nat) (rs : List (Option T))
    (hlen : rs.length = n) (hall : ∀ j, j < n → rs.get? j = some (some (f j))) :
    rs = (List.range n).map fun k => some (f k) := by
  rw [List.ext_get?_iff]
  intro j
  by_cases hj : j < n
  · rw [hall j hj, List.get?_map, List.get?_range hj]
    rfl
  · rw [List.get?_eq_none.mpr (by omega), List.get?_eq_none.mpr (by simp; omega)]

lemma launchLoop_invC5 {T : Type} (f : Nat → T) (limit n : Nat) :
    ∀ (fuel : Nat) (s : SchedState T), InvC5 f n s → InvC5 f n (launchLoop limit n fuel s) := by
  intro fuel
  induction fuel with
  | zero => intro s h; exact h
  | succ fuel ih =>
    intro s h
    rw [launchLoop]
    by_cases hc : s.inFlight < limit ∧ s.nextIndex < n
    · rw [if_pos hc]
      refine ih _ ?_
      have hnotmem : s.nextIndex ∉ s.running := fun hmem => by
        have := h.runBound _ hmem
        omega
      refine ⟨h.resLen, hc.2, h.notRejected, h.notCancelled, ?_, ?_, ?_, ?_, h.outcomeOk⟩
      · simp only
        rw [List.nodup_append]
        exact ⟨h.runNodup, List.nodup_singleton _, fun x hx hx' => by
          simp only [List.mem_singleton] at hx'
          subst hx'
          exact hnotmem hx⟩
      · intro i hi
        simp only [List.mem_append, List.mem_singleton] at hi
        rcases hi with hi | hi
        · have := h.runBound i hi; simp only; omega
        · simp only; omega
      · simp only [List.length_append, List.length_singleton]
        have := h.counter; omega
      · intro j hj hjmem
        simp only [List.mem_append, List.mem_singleton, not_or] at hjmem
        simp only at hj
        exact h.resVal j (by omega) hjmem.1
    · rw [if_neg hc]
      exact h

lemma launchNext_invC5 {T : Type} (f : Nat → T) (limit n : Nat) (s : SchedState T)
    (h : InvC5 f n s) : InvC5 f n (launchNext limit n s) := by
  unfold launchNext
  rw [if_neg (by simp [h.notRejected]), if_neg (by simp [h.notCancelled])]
  exact launchLoop_invC5 f limit n _ s h

lemma finallyStep_invC5 {T : Type} (f : Nat → T) (limit n : Nat) (s1 : SchedState T)
    (h : InvC5 f n s1) : InvC5 f n (finallyStep limit n s1) := by
  simp only [finallyStep]
  rw [if_neg (by simp [h.notRejected])]
  by_cases hdone : s1.completed = n
  · rw [if_pos (show ({ s1 with inFlight := s1.inFlight - 1 } : SchedState T).completed = n
      from hdone)]
    have hrun : s1.running = [] := by
      have := h.counter
      have := h.nextLe
      have hlen : s1.running.length = 0 := by omega
      exact List.length_eq_zero.mp hlen
    have hres : s1.results = (List.range n).map fun k => some (f k) := by
      refine results_eq_inorder f n s1.results h.resLen ?_
      intro j hj
      have hnext : s1.nextIndex = n := by
        have := h.counter; have := h.nextLe; omega
      exact h.resVal j (by omega) (by rw [hrun]; exact List.not_mem_nil j)
    refine ⟨by simp [h.resLen], by simp [h.nextLe], by simp [h.notRejected],
      by simp [h.notCancelled], by simp [h.runNodup], ?_, ?_, ?_, ?_⟩
    · intro i hi
      simp only [settleOutcome_running] at hi
      have := h.runBound i hi
      simp only [settleOutcome_nextIndex]
      omega
    · simp only [settleOutcome_completed, settleOutcome_running, settleOutcome_nextIndex]
      exact h.counter
    · intro j hj hjmem
      simp only [settleOutcome_nextIndex] at hj
      simp only [settleOutcome_running] at hjmem
      simp only [settleOutcome_results]
      exact h.resVal j (by omega) hjmem
    · unfold settleOutcome
      split
      · simp only [Option.some.injEq]
        right
        rw [hres]
      · rename_i o ho
        rcases h.outcomeOk with hnone | hsome
        · have ho' : s1.outcome = some o := ho
          rw [hnone] at ho'; cases ho'
        · right
          exact hsome
  · rw [if_neg (show ¬({ s1 with inFlight := s1.inFlight - 1 } : SchedState T).completed = n
      from hdone)]
    refine launchNext_invC5 f limit n _ ?_
    exact ⟨h.resLen, h.nextLe, h.notRejected, h.notCancelled, h.runNodup,
      h.runBound, h.counter, h.resVal, h.outcomeOk⟩

lemma settle_invC5 {T : Type} (f : Nat → T) (limit n i : Nat) (s : SchedState T)
    (h : InvC5 f n s) (hi : i ∈ s.running) :
    InvC5 f n (settle (fun k => TaskOutcome.ok (f k)) limit n i s) := by
  have hlen : (s.running.erase i).length + 1 = s.running.length :=
    List.length_erase_add_one hi
  have hiNext : i < s.nextIndex := h.runBound i hi
  have hiLen : i < s.results.length := by rw [h.resLen]; have := h.nextLe; omega
  simp only [settle]
  refine finallyStep_invC5 f limit n _ ?_
  refine ⟨by simp [h.resLen], h.nextLe, h.notRejected, h.notCancelled, ?_, ?_, ?_, ?_,
    h.outcomeOk⟩
  · simp only
    exact List.Nodup.erase i h.runNodup
  · intro j hj
    simp only at hj
    exact h.runBound j (List.mem_of_mem_erase hj)
  · simp only
    have := h.counter
    omega
  · intro j hj hjmem
    simp only at hj hjmem ⊢
    by_cases hji : j = i
    · subst hji
      exact List.get?_set_eq_of_lt _ hiLen
    · rw [List.get?_set_ne _ _ (fun hc => hji hc.symm)]
      have hjrun : j ∉ s.running := fun hc =>
        hjmem ((List.mem_erase_of_ne hji).mpr hc)
      exact h.resVal j hj hjrun

/-- **C5** — for every task list (all of which succeed, with task `k`
producing `f k`), every limit ≥ 1, and every order in which in-flight tasks
settle, if the `runWithConcurrency` promise resolves then its value is the
results in submission order: index `k` holds the result of task `k`. -/
theorem c5_resolves_in_submission_order (T : Type) (f : Nat → T) (limit n : Nat)
    (s : SchedState T) (_hlim : 1 ≤ limit)
    (h : SchedReach (fun k => TaskOutcome.ok (f k)) limit n false s)
    (rs : List (Option T)) (hout : s.outcome = some (SchedOutcome.resolved rs)) :
    rs = (List.range n).map fun k => some (f k) := by
  have hinv : InvC5 f n s := by
    clear hout
    induction h with
    | start =>
      refine launchNext_invC5 f limit n _ ?_
      exact ⟨List.length_replicate n none, Nat.zero_le n, rfl, rfl, List.nodup_nil,
        fun i hi => absurd hi (List.not_mem_nil i), rfl,
        fun j hj _ => absurd hj (Nat.not_lt_zero j), Or.inl rfl⟩
    | step hreach hi ih =>
      exact settle_invC5 f limit n _ _ ih hi
  rcases hinv.outcomeOk with hnone | hsome
  · rw [hnone] at hout; cases hout
  · rw [hsome] at hout
    injection hout with hout'
    injection hout' with hout''
    exact hout''.symm

/-- Witness for C5: a concrete single-task run (limit 1) resolves with the
in-order result array. -/
theorem c5_resolves_in_submission_order_witness :
    1 ≤ 1 ∧ [some 0] = (List.range 1).map fun k => some k :=
  ⟨le_refl 1,
    (c5_resolves_in_submission_order Nat (fun k => k) 1 1
      (settle (fun k => TaskOutcome.ok k) 1 1 0 (launchNext 1 1 (initState Nat 1 false)))
      (le_refl 1)
      (SchedReach.step SchedReach.start (by decide))
      [some 0] (by decide)).symm.symm⟩

/-- Witness for C7: the reachability hypothesis discharged at the initial
state of a concrete pre-cancelled run. -/
theorem c7_precancelled_rejects_without_tasks_witness :
    launchNext 2 3 (initState Nat 3 true) = launchNext 2 3 (initState Nat 3 true) ∧
      (launchNext 2 3 (initState Nat 3 true)).outcome =
        some SchedOutcome.cancelledReject ∧
      (launchNext 2 3 (initState Nat 3 true)).running = [] ∧
      (launchNext 2 3 (initState Nat 3 true)).nextIndex = 0 :=
  c7_precancelled_rejects_without_tasks Nat (fun i => TaskOutcome.ok i) 2 3 _
    SchedReach.start

/-! ## Line segmentation (`src/services/image-processor.ts`)

The pixel-level work (`detectInkRows`, canvas cropping, encoding) consumes an
image; the claims concern the geometry computed from the smoothed per-row
ink-pixel counts, which we take as the input `rows : List Nat`
(`rows.length` is the processed image height).  The ink threshold
`minInkPixels = Math.max(6, Math.floor(width * LINE_MIN_INK_PIXELS_RATIO))`
is computed with JS double arithmetic in the source; it is kept as an
arbitrary `Nat` parameter here, so every theorem below holds for whatever
value that expression produces. -/

/-- `LINE_MIN_HEIGHT_PX` from `constants/config.ts`. -/
def lineMinHeightPx : Nat := 6

/-- `LINE_VERTICAL_PADDING_PX` from `constants/config.ts`. -/
def lineVerticalPaddingPx : Nat := 8

/-- `LINE_MERGE_GAP_PX` from `constants/config.ts`. -/
def lineMergeGapPx : Nat := 8

/-- A run of consecutive ink rows (`{ start, end }` in the source; `end` is a
Lean keyword, so the field is named `stop`). -/
structure InkSpan where
  start : Nat
  stop : Nat
deriving DecidableEq, Repr

/-- A line slice's vertical band (`top`/`bottom` offsets into the processed
image); the cropped bitmap itself is omitted. -/
structure LineSlice where
  top : Nat
  bottom : Nat
deriving DecidableEq, Repr

/-- The scanning loop of `findInkSpans` (`image-processor.ts` lines 240–255):
walk the rows, opening a span at the first ink row (`rows[y] >= minInkPixels`)
and closing it at the first non-ink row; a span still open at the end is
closed at `rows.length`.  `y` is the current row index and the `Option`
argument the currently open span start (`start === -1` encoded as `none`). -/
def scanSpans (minInkPixels : Nat) : List Nat → Nat → Option Nat → List InkSpan
  | [], _, none => []
  | [], y, some s => [⟨s, y⟩]
  | r :: rest, y, none =>
    if minInkPixels ≤ r then scanSpans minInkPixels rest (y + 1) (some y)
    else scanSpans minInkPixels rest (y + 1) none
  | r :: rest, y, some s =>
    if minInkPixels ≤ r then scanSpans minInkPixels rest (y + 1) (some s)
    else ⟨s, y⟩ :: scanSpans minInkPixels rest (y + 1) none

/-- The merging loop of `mergeNearbySpans` (`image-processor.ts` lines
268–277): `cur` is the last span of the accumulator; a following span whose
start is within `gap` of `cur.stop` is absorbed (`last.end = max(last.end,
current.end)`), otherwise `cur` is emitted. -/
def mergeGo (gap : Nat) : InkSpan → List InkSpan → List InkSpan
  | cur, [] => [cur]
  | cur, nxt :: rest =>
    if nxt.start ≤ cur.stop + gap then mergeGo gap ⟨cur.start, max cur.stop nxt.stop⟩ rest
    else cur :: mergeGo gap nxt rest

/-- `mergeNearbySpans` from `image-processor.ts` (lines 261–279). -/
def mergeNearbySpans (spans : List InkSpan) (gap : Nat) : List InkSpan :=
  match spans with
  | [] => []
  | s :: rest => mergeGo gap s rest

/-- `findInkSpans` from `image-processor.ts` (lines 237–259): detect raw
spans, merge spans separated by at most `LINE_MERGE_GAP_PX`, and drop spans
shorter than `LINE_MIN_HEIGHT_PX`. -/
def findInkSpans (rows : List Nat) (minInkPixels : Nat) : List InkSpan :=
  let spans := scanSpans minInkPixels rows 0 none
  let merged := mergeNearbySpans spans lineMergeGapPx
  merged.filter fun sp => lineMinHeightPx ≤ sp.stop - sp.start

/-- Padding and clamping of one surviving span (`image-processor.ts` lines
79–80): `top = max(0, start - padding)` (truncated `Nat` subtraction) and
`bottom = min(height, end + padding)`. -/
def sliceOfSpan (height : Nat) (sp : InkSpan) : LineSlice :=
  ⟨sp.start - lineVerticalPaddingPx, min height (sp.stop + lineVerticalPaddingPx)⟩

/-- The geometry of `segmentImageIntoLines` (`image-processor.ts` lines
37–111): if no span survives, emit a single slice covering the whole page;
otherwise pad each span, drop any padded band shorter than
`LINE_MIN_HEIGHT_PX` (the loop's `continue`), and fall back to the whole-page
slice if nothing remains. -/
def segmentImageIntoLines (rows : List Nat) (minInkPixels : Nat) : List LineSlice :=
  let height := rows.length
  let spans := findInkSpans rows minInkPixels
  if spans = [] then [⟨0, height⟩]
  else
    let slices := (spans.map (sliceOfSpan height)).filter fun sl =>
      lineMinHeightPx ≤ sl.bottom - sl.top
    if slices = [] then [⟨0, height⟩] else slices

/-! ### C9: segmentation invariants -/

/-- Spans produced by the scan are well-formed (`start < stop`), start no
earlier than the open start (or the current row), and are strictly separated
(`stop < start` of the next). -/
lemma scanSpans_spec (minInkPixels : Nat) :
    ∀ (rows : List Nat) (y : Nat) (st : Option Nat),
      (∀ s, st = some s → s < y) →
      (∀ sp ∈ scanSpans minInkPixels rows y st,
        sp.start < sp.stop ∧ (match st with | some s => s ≤ sp.start | none => y ≤ sp.start)) ∧
      List.Chain' (fun a b => a.stop < b.start) (scanSpans minInkPixels rows y st) := by
  intro rows
  induction rows with
  | nil =>
    intro y st hst
    cases st with
    | none => simp [scanSpans]
    | some s =>
      refine ⟨?_, by simp [scanSpans]⟩
      intro sp hsp
      rw [scanSpans] at hsp
      simp only [List.mem_singleton] at hsp
      subst hsp
      exact ⟨hst s rfl, le_refl _⟩
  | cons r rest ih =>
    intro y st hst
    cases st with
    | none =>
      rw [scanSpans]
      by_cases hink : minInkPixels ≤ r
      · rw [if_pos hink]
        obtain ⟨hmem, hchain⟩ := ih (y + 1) (some y) (by intro s hs; injection hs with hs; omega)
        refine ⟨?_, hchain⟩
        intro sp hsp
        obtain ⟨hwf, hbound⟩ := hmem sp hsp
        exact ⟨hwf, by simp only at hbound ⊢; omega⟩
      · rw [if_neg hink]
        obtain ⟨hmem, hchain⟩ := ih (y + 1) none (by intro s hs; cases hs)
        refine ⟨?_, hchain⟩
        intro sp hsp
        obtain ⟨hwf, hbound⟩ := hmem sp hsp
        exact ⟨hwf, by simp only at hbound ⊢; omega⟩
    | some s =>
      rw [scanSpans]
      by_cases hink : minInkPixels ≤ r
      · rw [if_pos hink]
        refine ih (y + 1) (some s) ?_
        intro s' hs'
        injection hs' with hs'
        have := hst s rfl
        omega
      · rw [if_neg hink]
        obtain ⟨hmem, hchain⟩ := ih (y + 1) none (by intro s' hs'; cases hs')
        refine ⟨?_, ?_⟩
        · intro sp hsp
          simp only [List.mem_cons] at hsp
          rcases hsp with hsp | hsp
          · subst hsp
            exact ⟨hst s rfl, le_refl _⟩
          · obtain ⟨hwf, hbound⟩ := hmem sp hsp
            have hsy := hst s rfl
            exact ⟨hwf, by simp only at hbound ⊢; omega⟩
        · rw [List.chain'_cons']
          refine ⟨?_, hchain⟩
          intro b hb
          have hbmem : b ∈ scanSpans minInkPixels rest (y + 1) none :=
            List.mem_of_mem_head? hb
          obtain ⟨_, hbound⟩ := hmem b hbmem
          simp only at hbound ⊢
          omega

/-- The merge loop emits well-formed, `gap`-separated spans; the output is
non-empty and its head starts where `cur` starts. -/
lemma mergeGo_spec (gap : Nat) :
    ∀ (rest : List InkSpan) (cur : InkSpan),
      cur.start < cur.stop →
      (∀ sp ∈ rest, sp.start < sp.stop) →
      List.Chain' (fun a b => a.stop < b.start) (cur :: rest) →
      (∀ sp ∈ mergeGo gap cur rest, sp.start < sp.stop) ∧
      List.Chain' (fun a b => a.stop + gap < b.start) (mergeGo gap cur rest) ∧
      (∃ h t, mergeGo gap cur rest = h :: t ∧ h.start = cur.start) := by
  intro rest
  induction rest with
  | nil =>
    intro cur hcur _ _
    rw [mergeGo]
    exact ⟨by intro sp hsp; simp only [List.mem_singleton] at hsp; subst hsp; exact hcur,
      by simp, cur, [], rfl, rfl⟩
  | cons nxt rest ih =>
    intro cur hcur hwf hchain
    have hnxtwf : nxt.start < nxt.stop := hwf nxt (List.mem_cons_self _ _)
    have hcurnxt : cur.stop < nxt.start := (List.chain'_cons.mp hchain).1
    have hchainTail : List.Chain' (fun a b => a.stop < b.start) (nxt :: rest) :=
      (List.chain'_cons.mp hchain).2
    rw [mergeGo]
    by_cases hmerge : nxt.start ≤ cur.stop + gap
    · rw [if_pos hmerge]
      have hcur' : (⟨cur.start, max cur.stop nxt.stop⟩ : InkSpan).start <
          (⟨cur.start, max cur.stop nxt.stop⟩ : InkSpan).stop := by
        simp only
        omega
      have hwf' : ∀ sp ∈ rest, sp.start < sp.stop :=
        fun sp hsp => hwf sp (List.mem_cons_of_mem _ hsp)
      have hchain' : List.Chain'
          (fun a b => a.stop < b.start) ((⟨cur.start, max cur.stop nxt.stop⟩ : InkSpan) :: rest) := by
        rw [List.chain'_cons']
        refine ⟨?_, (List.chain'_cons'.mp hchainTail).2⟩
        intro b hb
        have hbmem : b ∈ rest := List.mem_of_mem_head? hb
        have hrel : ∀ c ∈ rest.head?, nxt.stop < c.start := (List.chain'_cons'.mp hchainTail).1
        have := hrel b hb
        simp only
        omega
      obtain ⟨m1, m2, h, t, heq, hstart⟩ := ih _ hcur' hwf' hchain'
      exact ⟨m1, m2, h, t, heq, by rw [hstart]⟩
    · rw [if_neg hmerge]
      obtain ⟨m1, m2, h, t, heq, hstart⟩ := ih nxt hnxtwf
        (fun sp hsp => hwf sp (List.mem_cons_of_mem _ hsp)) hchainTail
      refine ⟨?_, ?_, cur, mergeGo gap nxt rest, rfl, rfl⟩
      · intro sp hsp
        simp only [List.mem_cons] at hsp
        rcases hsp with hsp | hsp
        · subst hsp; exact hcur
        · exact m1 sp hsp
      · rw [List.chain'_cons']
        refine ⟨?_, m2⟩
        intro b hb
        rw [heq] at hb
        simp only [List.head?_cons, Option.mem_def, Option.some.injEq] at hb
        subst hb
        rw [hstart]
        omega

/-- Every span of a well-formed gap-chain starting after `a` starts after
`a.stop + gap`. -/
lemma chain_gap_all (gap : Nat) :
    ∀ (t : List InkSpan) (a : InkSpan),
      (∀ sp ∈ t, sp.start < sp.stop) →
      List.Chain' (fun x y => x.stop + gap < y.start) t →
      (∀ b ∈ t.head?, a.stop + gap < b.start) →
      ∀ b ∈ t, a.stop + gap < b.start := by
  intro t
  induction t with
  | nil => intro a _ _ _ b hb; cases hb
  | cons h t' ih =>
    intro a hwf hchain hhead b hb
    have hah : a.stop + gap < h.start := hhead h rfl
    simp only [List.mem_cons] at hb
    rcases hb with hb | hb
    · subst hb; exact hah
    · have hhwf : h.start < h.stop := hwf h (List.mem_cons_self _ _)
      have hchainT : List.Chain' (fun x y => x.stop + gap < y.start) t' :=
        (List.chain'_cons'.mp hchain).2
      have hheadT : ∀ c ∈ t'.head?, h.stop + gap < c.start := (List.chain'_cons'.mp hchain).1
      have := ih h (fun sp hsp => hwf sp (List.mem_cons_of_mem _ hsp)) hchainT hheadT b hb
      omega

/-- From chained gap-separation and well-formedness, gap-separation holds
pairwise. -/
lemma chain_gap_pairwise (gap : Nat) :
    ∀ l : List InkSpan, (∀ sp ∈ l, sp.start < sp.stop) →
      List.Chain' (fun a b => a.stop + gap < b.start) l →
      List.Pairwise (fun a b => a.stop + gap < b.start) l := by
  intro l
  induction l with
  | nil => intro _ _; exact List.Pairwise.nil
  | cons a t ih =>
    intro hwf hchain
    have hchainT : List.Chain' (fun x y => x.stop + gap < y.start) t :=
      (List.chain'_cons'.mp hchain).2
    have hhead : ∀ b ∈ t.head?, a.stop + gap < b.start := (List.chain'_cons'.mp hchain).1
    have hwfT : ∀ sp ∈ t, sp.start < sp.stop :=
      fun sp hsp => hwf sp (List.mem_cons_of_mem _ hsp)
    exact List.Pairwise.cons (chain_gap_all gap t a hwfT hchainT hhead) (ih hwfT hchainT)

/-- The surviving ink spans are well-formed, at least `LINE_MIN_HEIGHT_PX`
tall, and pairwise separated by more than `LINE_MERGE_GAP_PX`. -/
lemma findInkSpans_spec (rows : List Nat) (minInkPixels : Nat) :
    (∀ sp ∈ findInkSpans rows minInkPixels,
      sp.start < sp.stop ∧ lineMinHeightPx ≤ sp.stop - sp.start) ∧
    List.Pairwise (fun a b => a.stop + lineMergeGapPx < b.start)
      (findInkSpans rows minInkPixels) := by
  obtain ⟨hmem, hchain⟩ := scanSpans_spec minInkPixels rows 0 none (fun s h => by cases h)
  simp only [findInkSpans]
  rcases hscan : scanSpans minInkPixels rows 0 none with _ | ⟨s, rest⟩
  · simp [mergeNearbySpans]
  · simp only [mergeNearbySpans]
    rw [hscan] at hmem hchain
    have hswf : s.start < s.stop := (hmem s (List.mem_cons_self _ _)).1
    have hrestwf : ∀ sp ∈ rest, sp.start < sp.stop :=
      fun sp hsp => (hmem sp (List.mem_cons_of_mem _ hsp)).1
    obtain ⟨mwf, mchain, _⟩ := mergeGo_spec lineMergeGapPx rest s hswf hrestwf hchain
    have hpw := chain_gap_pairwise lineMergeGapPx _ mwf mchain
    constructor
    · intro sp hsp
      have hm := List.mem_of_mem_filter hsp
      have hp := List.of_mem_filter hsp
      exact ⟨mwf sp hm, of_decide_eq_true hp⟩
    · exact List.Pairwise.sublist (List.filter_sublist _) hpw

/-- Mapping the surviving spans to padded slices yields strictly increasing
top offsets. -/
lemma slices_pairwise (rows : List Nat) (minInkPixels : Nat) :
    List.Pairwise (fun a b => a.top < b.top)
      ((findInkSpans rows minInkPixels).map (sliceOfSpan rows.length)) := by
  obtain ⟨hmem, hpw⟩ := findInkSpans_spec rows minInkPixels
  rw [List.pairwise_map]
  refine List.Pairwise.imp_of_mem ?_ hpw
  intro a b ha hb hrel
  obtain ⟨hawf, hah⟩ := hmem a ha
  simp only [lineMinHeightPx] at hah
  simp only [lineMergeGapPx] at hrel
  simp only [sliceOfSpan, lineVerticalPaddingPx]
  omega

/-- **C9** — segmentation never returns an empty slice list; when zero ink
spans survive detection/merging/filtering the result is a single slice
covering the whole page (top `0`, bottom the image height); the returned
slices are strictly ordered by increasing top offset; and every retained span
is at least `LINE_MIN_HEIGHT_PX` tall before padding. -/
theorem c9_segmentation_geometry (rows : List Nat) (minInkPixels : Nat) :
    segmentImageIntoLines rows minInkPixels ≠ [] ∧
    (findInkSpans rows minInkPixels = [] →
      segmentImageIntoLines rows minInkPixels = [⟨0, rows.length⟩]) ∧
    List.Chain' (fun a b => a.top < b.top) (segmentImageIntoLines rows minInkPixels) ∧
    (∀ sp ∈ findInkSpans rows minInkPixels, lineMinHeightPx ≤ sp.stop - sp.start) := by
  obtain ⟨hmem, _⟩ := findInkSpans_spec rows minInkPixels
  refine ⟨?_, ?_, ?_, fun sp hsp => (hmem sp hsp).2⟩
  · simp only [segmentImageIntoLines]
    split
    · exact List.cons_ne_nil _ _
    · split
      · exact List.cons_ne_nil _ _
      · rename_i hsl
        exact hsl
  · intro hspans
    simp only [segmentImageIntoLines, if_pos hspans]
  · simp only [segmentImageIntoLines]
    split
    · simp
    · split
      · simp
      · refine List.Pairwise.chain' ?_
        exact List.Pairwise.sublist (List.filter_sublist _) (slices_pairwise rows minInkPixels)

/-- Witness for C9: the zero-spans hypothesis of the fallback conjunct
discharged on a concrete all-blank page. -/
theorem c9_segmentation_geometry_witness :
    findInkSpans [0, 0, 0] 6 = [] ∧
      segmentImageIntoLines [0, 0, 0] 6 = [⟨0, ([0, 0, 0] : List Nat).length⟩] :=
  ⟨by decide, (c9_segmentation_geometry [0, 0, 0] 6).2.1 (by decide)⟩

end Ink2Md

